import Mathlib

/-!
Verification of the substitution-model construction engine of
cogent/evolve/substitution_model.py: predicate masks, rank-based
redundancy detection, construction-time validation, rate-matrix
assembly, the indel heuristic and word-probability expansion.
Numpy float matrices are embedded as flat row-major lists of
rationals; alphabets as lists of motifs (lists of characters).
-/

namespace Cogent

/-- a flattened numeric matrix (numpy array), stored row major -/
abbrev Row := List ℚ

/-- a row whose entries are all zero (numpy alltrue(matrix == 0)) -/
def isZeroRow (r : Row) : Bool := r.all fun x => decide (x = 0)

/-- index of the first nonzero entry of a row, if any -/
def leadIdx : Row → Option ℕ
  | [] => none
  | x :: xs => if x = 0 then (leadIdx xs).map (· + 1) else some 0

/-- eliminate the leading entry of pivot `p` from row `r` -/
def reduceBy (r p : Row) : Row :=
  match leadIdx p with
  | none => r
  | some c => List.zipWith (fun a b => a - r.getD c 0 / p.getD c 0 * b) r p

/-- reduce a row against every pivot collected so far -/
def reduceRow (pivots : List Row) (r : Row) : Row := pivots.foldl reduceBy r

/-- incorporate one more row into the pivot set of the elimination -/
def rankStep (pivots : List Row) (r : Row) : List Row :=
  if isZeroRow (reduceRow pivots r) then pivots else pivots ++ [reduceRow pivots r]

/-- pivot rows found by eliminating the given rows in order -/
def rankPivots (rows : List Row) : List Row := rows.foldl rankStep []

/-- Embeds the numerical matrix rank used by redundancyInPredicateMasks:
the source counts the singular values of the stacked flattened masks whose
absolute value exceeds 1e-8, which on exact data is the row rank; here the
row rank is computed by Gaussian elimination over ℚ. -/
def matrixRank (rows : List Row) : ℕ := (rankPivots rows).length

/-- Embeds redundancyInPredicateMasks: number of masks minus the rank of
the matrix whose rows are the flattened masks. -/
def redundancyInPredicateMasks (masks : List Row) : ℕ :=
  masks.length - matrixRank masks

theorem isZeroRow_iff (r : Row) : isZeroRow r = true ↔ ∀ x ∈ r, x = 0 := by
  simp [isZeroRow]

theorem isZeroRow_cons (x : ℚ) (xs : Row) :
    isZeroRow (x :: xs) = (decide (x = 0) && isZeroRow xs) := rfl

theorem getD_eq_zero_of_isZeroRow (r : Row) (h : isZeroRow r = true) (c : ℕ) :
    r.getD c 0 = 0 := by
  induction r generalizing c with
  | nil => simp
  | cons a t ih =>
    have h' := (isZeroRow_iff _).mp h
    rcases c with _ | c
    · simpa using h' a (List.mem_cons_self a t)
    · simpa using ih ((isZeroRow_iff t).mpr fun x hx => h' x (List.mem_cons_of_mem a hx)) c

theorem isZeroRow_zipWith (f : ℚ → ℚ → ℚ) (hf : ∀ b, f 0 b = 0) :
    ∀ (r p : Row), isZeroRow r = true → isZeroRow (List.zipWith f r p) = true := by
  intro r
  induction r with
  | nil => intro p _; rfl
  | cons a t ih =>
    intro p h
    cases p with
    | nil => rfl
    | cons b q =>
      have h' := (isZeroRow_iff _).mp h
      have ha : a = 0 := h' a (List.mem_cons_self a t)
      have ht : isZeroRow t = true :=
        (isZeroRow_iff t).mpr fun x hx => h' x (List.mem_cons_of_mem a hx)
      have hq := ih q ht
      rw [List.zipWith_cons_cons, isZeroRow_cons, hq, ha, hf]
      simp

theorem isZeroRow_reduceBy_left (r p : Row) (h : isZeroRow r = true) :
    isZeroRow (reduceBy r p) = true := by
  unfold reduceBy
  cases hl : leadIdx p with
  | none => exact h
  | some c =>
    apply isZeroRow_zipWith _ _ r p h
    intro b
    rw [getD_eq_zero_of_isZeroRow r h c]
    simp

theorem leadIdx_of_not_zero (r : Row) (h : isZeroRow r = false) :
    ∃ c, leadIdx r = some c ∧ r.getD c 0 ≠ 0 := by
  induction r with
  | nil => simp [isZeroRow] at h
  | cons a t ih =>
    by_cases ha : a = 0
    · have ht : isZeroRow t = false := by
        rw [isZeroRow_cons, ha] at h
        simpa using h
      obtain ⟨c, hc, hv⟩ := ih ht
      refine ⟨c + 1, ?_, by simpa using hv⟩
      simp [leadIdx, ha, hc]
    · exact ⟨0, by simp [leadIdx, ha], by simpa using ha⟩

theorem zipWith_sub_one_self (k : ℚ) (hk : k = 1) (l : Row) :
    isZeroRow (List.zipWith (fun a b => a - k * b) l l) = true := by
  subst hk
  induction l with
  | nil => rfl
  | cons a t ih =>
    rw [List.zipWith_cons_cons, isZeroRow_cons, ih]
    simp

theorem isZeroRow_reduceBy_self (r : Row) (h : isZeroRow r = false) :
    isZeroRow (reduceBy r r) = true := by
  obtain ⟨c, hc, hv⟩ := leadIdx_of_not_zero r h
  unfold reduceBy
  rw [hc]
  exact zipWith_sub_one_self _ (div_self hv) r

theorem isZeroRow_reduceRow_of_zero (P : List Row) (z : Row) (h : isZeroRow z = true) :
    isZeroRow (reduceRow P z) = true := by
  induction P generalizing z with
  | nil => exact h
  | cons p P ih => exact ih (reduceBy z p) (isZeroRow_reduceBy_left z p h)

theorem reduceRow_append (P Q : List Row) (r : Row) :
    reduceRow (P ++ Q) r = Q.foldl reduceBy (reduceRow P r) := by
  unfold reduceRow
  exact List.foldl_append _ _ _ _

theorem isZeroRow_reduceRow_append (P Q : List Row) (r : Row)
    (h : isZeroRow (reduceRow P r) = true) :
    isZeroRow (reduceRow (P ++ Q) r) = true := by
  rw [reduceRow_append]
  exact isZeroRow_reduceRow_of_zero Q (reduceRow P r) h

theorem reduceRow_rankStep_self (P : List Row) (r : Row) :
    isZeroRow (reduceRow (rankStep P r) r) = true := by
  unfold rankStep
  by_cases h : isZeroRow (reduceRow P r) = true
  · rw [if_pos h]; exact h
  · have h' : isZeroRow (reduceRow P r) = false := by simpa using h
    rw [if_neg (by simp [h'])]
    rw [reduceRow_append]
    simpa using isZeroRow_reduceBy_self _ h'

theorem rankStep_preserves_zero (P : List Row) (r s : Row)
    (h : isZeroRow (reduceRow P s) = true) :
    isZeroRow (reduceRow (rankStep P r) s) = true := by
  unfold rankStep
  split
  · exact h
  · exact isZeroRow_reduceRow_append _ _ _ h

theorem processed_rows_reduce_zero (rows : List Row) (P : List Row) (s : Row)
    (h : isZeroRow (reduceRow P s) = true ∨ s ∈ rows) :
    isZeroRow (reduceRow (rows.foldl rankStep P) s) = true := by
  induction rows generalizing P with
  | nil =>
    rcases h with h | h
    · exact h
    · simp at h
  | cons r rest ih =>
    rw [List.foldl_cons]
    apply ih
    rcases h with h | h
    · exact Or.inl (rankStep_preserves_zero P r s h)
    · rcases List.mem_cons.mp h with rfl | h2
      · exact Or.inl (reduceRow_rankStep_self P s)
      · exact Or.inr h2

theorem foldl_rankStep_length (rows : List Row) (P : List Row) :
    (rows.foldl rankStep P).length ≤ P.length + rows.length := by
  induction rows generalizing P with
  | nil => simp
  | cons r rest ih =>
    rw [List.foldl_cons]
    have h := ih (rankStep P r)
    have hs : (rankStep P r).length ≤ P.length + 1 := by
      unfold rankStep
      split <;> simp
    simp only [List.length_cons]
    omega

theorem rankStep_eq_of_zero (P : List Row) (r : Row)
    (h : isZeroRow (reduceRow P r) = true) : rankStep P r = P := by
  unfold rankStep
  rw [if_pos h]

theorem matrixRank_lt_of_dup (A B C : List Row) (m : Row) :
    matrixRank (A ++ m :: B ++ m :: C) < (A ++ m :: B ++ m :: C).length := by
  unfold matrixRank rankPivots
  have h1 : A ++ m :: B ++ m :: C = (A ++ m :: B) ++ m :: C := by simp
  rw [h1, List.foldl_append, List.foldl_cons]
  have hz : isZeroRow (reduceRow ((A ++ m :: B).foldl rankStep []) m) = true :=
    processed_rows_reduce_zero (A ++ m :: B) [] m (Or.inr (by simp))
  rw [rankStep_eq_of_zero _ _ hz]
  have h2 := foldl_rankStep_length C ((A ++ m :: B).foldl rankStep [])
  have h3 := foldl_rankStep_length (A ++ m :: B) []
  simp only [List.length_append, List.length_cons, List.length_nil] at h2 h3 ⊢
  omega

theorem redundancy_pos_of_dup (A B C : List Row) (m : Row) :
    0 < redundancyInPredicateMasks (A ++ m :: B ++ m :: C) :=
  Nat.sub_pos_of_lt (matrixRank_lt_of_dup A B C m)

/-- the construction-time validation failures raised by the model engine -/
inductive ModelError
  | duplicatePredicateName (label : String)
  | predicateAlwaysFalse (name : String)
  | predicateAlwaysTrue (name : String)
  | redundancyInPredicates
  | predicatesCollapseIntoScale
deriving DecidableEq

/-- Embeds SubstitutionModel.checkPredicateMasks.  The masks are an
association list (name, flattened mask) preserving iteration order; the
ok value records whether the non-scaling overly-general-predicates
warning was emitted (construction succeeds in that case). -/
def checkPredicateMasks (doScaling : Bool) (inst : Row)
    (masks : List (String × Row)) : Except ModelError Bool :=
  match masks.find? (fun nm => isZeroRow nm.2) with
  | some nm => .error (.predicateAlwaysFalse nm.1)
  | none =>
    let plusScale := masks.map Prod.snd ++ [inst]
    if doScaling then
      match masks.find? (fun nm => decide (nm.2 = inst)) with
      | some nm => .error (.predicateAlwaysTrue nm.1)
      | none =>
        if redundancyInPredicateMasks (masks.map Prod.snd) ≠ 0 then
          .error .redundancyInPredicates
        else if redundancyInPredicateMasks plusScale ≠ 0 then
          .error .predicatesCollapseIntoScale
        else .ok false
    else
      if redundancyInPredicateMasks (masks.map Prod.snd) ≠ 0 then
        .error .redundancyInPredicates
      else .ok (decide (redundancyInPredicateMasks plusScale ≠ 0))

theorem find?_zero_eq_none (masks : List (String × Row))
    (hz : ∀ nm ∈ masks, isZeroRow nm.2 = false) :
    masks.find? (fun nm => isZeroRow nm.2) = none :=
  List.find?_eq_none.mpr fun nm h => by simp [hz nm h]

theorem find?_inst_eq_none (inst : Row) (masks : List (String × Row))
    (hi : ∀ nm ∈ masks, nm.2 ≠ inst) :
    masks.find? (fun nm => decide (nm.2 = inst)) = none :=
  List.find?_eq_none.mpr fun nm h => by simp [hi nm h]

theorem find?_isSome_of_exists (p : (String × Row) → Bool) (masks : List (String × Row))
    (h : ∃ nm ∈ masks, p nm = true) : ∃ nm, masks.find? p = some nm := by
  cases hf : masks.find? p with
  | some nm => exact ⟨nm, rfl⟩
  | none =>
    obtain ⟨nm, hmem, hp⟩ := h
    have := List.find?_eq_none.mp hf nm hmem
    simp [hp] at this

theorem check_allzero_error (doScaling : Bool) (inst : Row)
    (masks : List (String × Row)) (h : ∃ nm ∈ masks, isZeroRow nm.2 = true) :
    ∃ name, checkPredicateMasks doScaling inst masks
      = .error (.predicateAlwaysFalse name) := by
  obtain ⟨nm, hf⟩ := find?_isSome_of_exists (fun nm => isZeroRow nm.2) masks h
  exact ⟨nm.1, by simp [checkPredicateMasks, hf]⟩

theorem check_alwaystrue_error (inst : Row) (masks : List (String × Row))
    (hz : ∀ nm ∈ masks, isZeroRow nm.2 = false) (hex : ∃ nm ∈ masks, nm.2 = inst) :
    ∃ name, checkPredicateMasks true inst masks
      = .error (.predicateAlwaysTrue name) := by
  obtain ⟨nm, hf⟩ := find?_isSome_of_exists (fun nm => decide (nm.2 = inst)) masks (by
    obtain ⟨nm, hmem, he⟩ := hex
    exact ⟨nm, hmem, by simp [he]⟩)
  exact ⟨nm.1, by simp [checkPredicateMasks, find?_zero_eq_none masks hz, hf]⟩

theorem check_not_scaling_no_alwaystrue (inst : Row) (masks : List (String × Row))
    (name : String) :
    checkPredicateMasks false inst masks ≠ .error (.predicateAlwaysTrue name) := by
  cases hf : masks.find? (fun nm => isZeroRow nm.2) with
  | some nm => simp [checkPredicateMasks, hf]
  | none =>
    simp only [checkPredicateMasks, hf]
    rw [if_neg (by simp)]
    split <;> simp

theorem check_redundant_error (doScaling : Bool) (inst : Row)
    (masks : List (String × Row))
    (hz : ∀ nm ∈ masks, isZeroRow nm.2 = false)
    (hi : doScaling = true → ∀ nm ∈ masks, nm.2 ≠ inst)
    (hr : redundancyInPredicateMasks (masks.map Prod.snd) ≠ 0) :
    checkPredicateMasks doScaling inst masks = .error .redundancyInPredicates := by
  cases doScaling with
  | true =>
    simp [checkPredicateMasks, find?_zero_eq_none masks hz,
      find?_inst_eq_none inst masks (hi rfl), hr]
  | false =>
    simp [checkPredicateMasks, find?_zero_eq_none masks hz, hr]

theorem check_collapse_cases (doScaling : Bool) (inst : Row)
    (masks : List (String × Row))
    (hz : ∀ nm ∈ masks, isZeroRow nm.2 = false)
    (hi : doScaling = true → ∀ nm ∈ masks, nm.2 ≠ inst)
    (hr0 : redundancyInPredicateMasks (masks.map Prod.snd) = 0)
    (hrp : redundancyInPredicateMasks (masks.map Prod.snd ++ [inst]) ≠ 0) :
    (doScaling = true →
      checkPredicateMasks doScaling inst masks = .error .predicatesCollapseIntoScale)
    ∧ (doScaling = false → checkPredicateMasks doScaling inst masks = .ok true) := by
  cases doScaling with
  | true =>
    refine ⟨fun _ => ?_, fun h => by simp at h⟩
    simp [checkPredicateMasks, find?_zero_eq_none masks hz,
      find?_inst_eq_none inst masks (hi rfl), hr0, hrp]
  | false =>
    refine ⟨fun h => by simp at h, fun _ => ?_⟩
    simp [checkPredicateMasks, find?_zero_eq_none masks hz, hr0, hrp]

/-- C3: checkPredicateMasks applies its validation rules in order: an
all-zero mask raises the predicate-never-true error in both scaling
modes; a mask equal to the full instantaneous mask raises the
predicate-always-true error only when scaling is enabled; rank
deficiency among the parameter masks alone raises the
redundant-predicates error in both modes; rank deficiency of the masks
plus the instantaneous mask raises the collapses-into-overall-rate
error when scaling is enabled but only emits a warning (construction
returns ok) when scaling is disabled. -/
theorem c3_checkPredicateMasks_order (doScaling : Bool) (inst : Row)
    (masks : List (String × Row)) :
    ((∃ nm ∈ masks, isZeroRow nm.2 = true) →
      ∃ name, checkPredicateMasks doScaling inst masks
        = .error (.predicateAlwaysFalse name))
    ∧ ((∀ nm ∈ masks, isZeroRow nm.2 = false) → doScaling = true →
        (∃ nm ∈ masks, nm.2 = inst) →
      ∃ name, checkPredicateMasks doScaling inst masks
        = .error (.predicateAlwaysTrue name))
    ∧ (doScaling = false → ∀ name,
        checkPredicateMasks doScaling inst masks ≠ .error (.predicateAlwaysTrue name))
    ∧ ((∀ nm ∈ masks, isZeroRow nm.2 = false) →
        (doScaling = true → ∀ nm ∈ masks, nm.2 ≠ inst) →
        redundancyInPredicateMasks (masks.map Prod.snd) ≠ 0 →
      checkPredicateMasks doScaling inst masks = .error .redundancyInPredicates)
    ∧ ((∀ nm ∈ masks, isZeroRow nm.2 = false) →
        (doScaling = true → ∀ nm ∈ masks, nm.2 ≠ inst) →
        redundancyInPredicateMasks (masks.map Prod.snd) = 0 →
        redundancyInPredicateMasks (masks.map Prod.snd ++ [inst]) ≠ 0 →
      (doScaling = true →
        checkPredicateMasks doScaling inst masks = .error .predicatesCollapseIntoScale)
      ∧ (doScaling = false → checkPredicateMasks doScaling inst masks = .ok true)) := by
  refine ⟨check_allzero_error doScaling inst masks, ?_, ?_,
    check_redundant_error doScaling inst masks, check_collapse_cases doScaling inst masks⟩
  · intro hz hds hex
    subst hds
    exact check_alwaystrue_error inst masks hz hex
  · intro hds
    subst hds
    exact check_not_scaling_no_alwaystrue inst masks

/-- C3 witness: concrete instances exercising rule 1 (scaling mode) and
rule 4 in non-scaling mode, where construction succeeds with a warning. -/
theorem c3_witness :
    (∃ name, checkPredicateMasks true [0,1,1,0] [("z", [0,0,0,0])]
      = .error (.predicateAlwaysFalse name))
    ∧ checkPredicateMasks false [0,1,1,0] [("p", [0,1,0,0]), ("q", [0,0,1,0])]
      = .ok true := by
  refine ⟨(c3_checkPredicateMasks_order true [0,1,1,0] [("z", [0,0,0,0])]).1
      ⟨("z", [0,0,0,0]), by simp, by with_unfolding_all decide⟩, ?_⟩
  exact ((c3_checkPredicateMasks_order false [0,1,1,0]
      [("p", [0,1,0,0]), ("q", [0,0,1,0])]).2.2.2.2
    (by with_unfolding_all decide) (fun h => nomatch h)
    (by with_unfolding_all decide) (by with_unfolding_all decide)).2 rfl

/-- C2 counterexample: the same all-zero mask registered under the two
names a and b gives nonzero redundancy, but model construction raises
the predicate-never-true error, not the redundant-predicates error the
claim asserts. -/
theorem c2_counterexample :
    0 < redundancyInPredicateMasks [[0,0,0,0], [0,0,0,0]]
    ∧ checkPredicateMasks true [0,1,1,0] [("a", [0,0,0,0]), ("b", [0,0,0,0])]
      = .error (.predicateAlwaysFalse "a")
    ∧ checkPredicateMasks true [0,1,1,0] [("a", [0,0,0,0]), ("b", [0,0,0,0])]
      ≠ .error .redundancyInPredicates := by
  have he : checkPredicateMasks true [0,1,1,0] [("a", [0,0,0,0]), ("b", [0,0,0,0])]
      = .error (.predicateAlwaysFalse "a") := by with_unfolding_all rfl
  refine ⟨by with_unfolding_all decide, he, ?_⟩
  rw [he]
  simp

/-- C2 (amended): any mask set containing the same mask under two
distinct names has nonzero redundancy, and model construction raises
the redundant-predicates error provided no mask is all-zero and, when
scaling is enabled, no mask equals the full instantaneous mask. -/
theorem c2_redundancy_of_duplicate (doScaling : Bool) (inst : Row)
    (A B C : List (String × Row)) (n1 n2 : String) (m : Row)
    (hz : ∀ nm ∈ A ++ (n1, m) :: B ++ (n2, m) :: C, isZeroRow nm.2 = false)
    (hi : doScaling = true → ∀ nm ∈ A ++ (n1, m) :: B ++ (n2, m) :: C, nm.2 ≠ inst) :
    0 < redundancyInPredicateMasks ((A ++ (n1, m) :: B ++ (n2, m) :: C).map Prod.snd)
    ∧ checkPredicateMasks doScaling inst (A ++ (n1, m) :: B ++ (n2, m) :: C)
      = .error .redundancyInPredicates := by
  have hmap : (A ++ (n1, m) :: B ++ (n2, m) :: C).map Prod.snd
      = A.map Prod.snd ++ m :: B.map Prod.snd ++ m :: C.map Prod.snd := by
    simp
  have hpos : 0 < redundancyInPredicateMasks
      ((A ++ (n1, m) :: B ++ (n2, m) :: C).map Prod.snd) := by
    rw [hmap]
    exact redundancy_pos_of_dup _ _ _ m
  exact ⟨hpos, check_redundant_error doScaling inst _ hz hi (Nat.pos_iff_ne_zero.mp hpos)⟩

/-- C2 witness: the amended statement applied to a concrete duplicated
nonzero mask. -/
theorem c2_witness :
    0 < redundancyInPredicateMasks
      ([("x", [0,1,0,0]), ("y", [0,1,0,0])].map Prod.snd)
    ∧ checkPredicateMasks true [0,1,1,0] [("x", [0,1,0,0]), ("y", [0,1,0,0])]
      = .error .redundancyInPredicates :=
  c2_redundancy_of_duplicate true [0,1,1,0] [] [] [] "x" "y" [0,1,0,0]
    (by with_unfolding_all decide) (fun _ => by with_unfolding_all decide)

/-- Embeds numpy.put(work, indices, par): set every listed flat index of
the scratch buffer to the parameter value. -/
def putIndices (work : Row) (indices : List ℕ) (v : ℚ) : Row :=
  indices.foldl (fun w i => w.set i v) work

/-- one iteration of the calcRateMatrix loop: scatter the parameter into
the scratch buffer at its predicate indices, multiply elementwise into
the accumulator, and reset the scratch buffer to 1.0 -/
def rateStep (Fw : Row × Row) (ip : List ℕ × ℚ) : Row × Row :=
  (List.zipWith (fun x y => x * y) Fw.1 (putIndices Fw.2 ip.1 ip.2),
   List.replicate (putIndices Fw.2 ip.1 ip.2).length 1)

/-- Embeds SubstitutionModel.calcRateMatrix: start from the instantaneous
mask cast to float, and for each (indices, param) pair multiply the
scattered scratch buffer into the accumulator. -/
def calcRateMatrix (instF : Row) (predIndices : List (List ℕ)) (params : List ℚ) : Row :=
  ((predIndices.zip params).foldl rateStep (instF, List.replicate instF.length 1)).1

/-- Embeds numpy.nonzero(mask.ravel())[0]: the flat indices of the nonzero
mask entries, in increasing order. -/
def nonzeroIndices (mask : Row) : List ℕ :=
  (List.range mask.length).filter fun k => decide (mask.getD k 0 ≠ 0)

/-- the mask guard of predicate2matrix: a pair is considered when the
optional restricting mask is absent or nonzero at its flat index -/
def maskAllows (mask : Option Row) (k : ℕ) : Bool :=
  match mask with
  | none => true
  | some ms => decide (ms.getD k 0 ≠ 0)

/-- Embeds predicate2matrix: the flat row-major 0/1 matrix of the predicate
over all ordered motif pairs, restricted to the optional mask. -/
def predicate2matrix (alphabet : List (List Char)) (pred : List Char → List Char → Bool)
    (mask : Option Row) : Row :=
  (List.range (alphabet.length * alphabet.length)).map fun k =>
    if maskAllows mask k
        && pred (alphabet.getD (k / alphabet.length) [])
                (alphabet.getD (k % alphabet.length) []) then 1 else 0

/-- number of positions at which two motifs differ (sum of X!=Y over zip) -/
def countDiffs (x y : List Char) : ℕ :=
  (x.zip y).countP fun ab => decide (ab.1 ≠ ab.2)

/-- Embeds the loop of _isAnyIndel, carrying gap_start, gap_end and
gap_strand through the enumerated pairs. -/
def anyIndelLoop (g : List Char) :
    ℕ → Option ℕ → Option ℕ → ℕ → List (Char × Char) → Bool
  | _, _, _, _, [] => true
  | i, gapStart, gapEnd, gapStrand, (X, Y) :: rest =>
    if X ≠ Y then
      if X ≠ g.getD i ' ' ∧ Y ≠ g.getD i ' ' then false
      else
        match gapStart with
        | none =>
          anyIndelLoop g (i+1) (some i) gapEnd (if X = g.getD i ' ' then 0 else 1) rest
        | some s =>
          if gapEnd.isSome ∨ (if X = g.getD i ' ' then 0 else 1) ≠ gapStrand then false
          else anyIndelLoop g (i+1) (some s) gapEnd gapStrand rest
    else
      match gapStart with
      | none => anyIndelLoop g (i+1) none gapEnd gapStrand rest
      | some s => anyIndelLoop g (i+1) (some s) (some i) gapStrand rest

/-- Embeds _isAnyIndel: an indel of any length, x == y rejected up front. -/
def isAnyIndel (g x y : List Char) : Bool :=
  if x = y then false else anyIndelLoop g 0 none none 0 (x.zip y)

/-- Embeds _isInstantaneous of the base SubstitutionModel. -/
def isInstantaneous (g : List Char) (longIndels : Bool) (x y : List Char) : Bool :=
  decide (countDiffs x y = 1)
    || (decide (1 < countDiffs x y) && longIndels && isAnyIndel g x y)

theorem getD_set_self (l : Row) (i : ℕ) (v : ℚ) (h : i < l.length) :
    (l.set i v).getD i 0 = v := by
  induction l generalizing i with
  | nil => simp at h
  | cons a t ih =>
    cases i with
    | zero => simp
    | succ j => simpa using ih j (by simpa using h)

theorem getD_set_other (l : Row) (i k : ℕ) (v : ℚ) (h : i ≠ k) :
    (l.set i v).getD k 0 = l.getD k 0 := by
  induction l generalizing i k with
  | nil => simp
  | cons a t ih =>
    cases i with
    | zero =>
      cases k with
      | zero => exact absurd rfl h
      | succ j => simp
    | succ j =>
      cases k with
      | zero => simp
      | succ j2 => simpa using ih j j2 (by omega)

theorem length_putIndices (work : Row) (indices : List ℕ) (v : ℚ) :
    (putIndices work indices v).length = work.length := by
  induction indices generalizing work with
  | nil => rfl
  | cons i rest ih =>
    show (putIndices (work.set i v) rest v).length = work.length
    rw [ih (work.set i v), List.length_set]

theorem getD_putIndices (work : Row) (indices : List ℕ) (v : ℚ) (k : ℕ)
    (hk : k < work.length) :
    (putIndices work indices v).getD k 0
      = if k ∈ indices then v else work.getD k 0 := by
  induction indices generalizing work with
  | nil => simp [putIndices]
  | cons i rest ih =>
    show (putIndices (work.set i v) rest v).getD k 0 = _
    rw [ih (work.set i v) (by rw [List.length_set]; exact hk)]
    by_cases hkr : k ∈ rest
    · rw [if_pos hkr, if_pos (List.mem_cons_of_mem i hkr)]
    · by_cases hik : i = k
      · subst hik
        rw [if_neg hkr, if_pos (List.mem_cons_self i rest)]
        exact getD_set_self work i v hk
      · rw [if_neg hkr, if_neg ?_, getD_set_other work i k v hik]
        intro hc
        rcases List.mem_cons.mp hc with h | h
        · exact hik h.symm
        · exact hkr h

theorem getD_zipWith (f : ℚ → ℚ → ℚ) (a b : Row) (k : ℕ)
    (h1 : k < a.length) (h2 : k < b.length) :
    (List.zipWith f a b).getD k 0 = f (a.getD k 0) (b.getD k 0) := by
  induction a generalizing b k with
  | nil => simp at h1
  | cons x t ih =>
    cases b with
    | nil => simp at h2
    | cons y u =>
      cases k with
      | zero => simp
      | succ j => simpa using ih u j (by simpa using h1) (by simpa using h2)

theorem getD_replicate_one (n k : ℕ) (h : k < n) :
    (List.replicate n (1:ℚ)).getD k 0 = 1 := by
  induction n generalizing k with
  | zero => simp at h
  | succ m ih =>
    cases k with
    | zero => simp [List.replicate]
    | succ j => simpa [List.replicate] using ih j (by omega)

theorem rate_foldl_getD (pairs : List (List ℕ × ℚ)) (F : Row) (n : ℕ)
    (hF : F.length = n) (k : ℕ) (hk : k < n) :
    ((pairs.foldl rateStep (F, List.replicate n 1)).1).getD k 0
      = F.getD k 0 * ((pairs.filter fun ip => decide (k ∈ ip.1)).map Prod.snd).prod := by
  induction pairs generalizing F with
  | nil => simp
  | cons ip rest ih =>
    rw [List.foldl_cons]
    have hwlen : (putIndices (List.replicate n (1:ℚ)) ip.1 ip.2).length = n := by
      rw [length_putIndices, List.length_replicate]
    have hstep : rateStep (F, List.replicate n 1) ip
        = (List.zipWith (fun x y => x * y) F (putIndices (List.replicate n 1) ip.1 ip.2),
           List.replicate n 1) := by
      unfold rateStep
      rw [hwlen]
    rw [hstep]
    have hFlen : (List.zipWith (fun x y => x * y) F
        (putIndices (List.replicate n 1) ip.1 ip.2)).length = n := by
      rw [List.length_zipWith, hF, hwlen, Nat.min_self]
    rw [ih _ hFlen]
    rw [getD_zipWith _ F _ k (by omega) (by omega)]
    rw [getD_putIndices _ _ _ k (by rw [List.length_replicate]; exact hk)]
    rw [List.filter_cons]
    by_cases hmem : k ∈ ip.1
    · rw [if_pos hmem]
      have hd : decide (k ∈ ip.1) = true := by simp [hmem]
      rw [hd, if_pos rfl, List.map_cons, List.prod_cons]
      ring
    · rw [if_neg hmem, getD_replicate_one n k hk]
      have hd : decide (k ∈ ip.1) = false := by simp [hmem]
      rw [hd, if_neg (by simp)]
      ring

theorem mem_nonzeroIndices (m : Row) (k : ℕ) (hk : k < m.length) :
    k ∈ nonzeroIndices m ↔ m.getD k 0 ≠ 0 := by
  simp [nonzeroIndices, List.mem_filter, List.mem_range, hk]

theorem zip_map_filter_eq (masks : List Row) (params : List ℚ) (k : ℕ)
    (hm : ∀ m ∈ masks, k < m.length) :
    (((masks.map nonzeroIndices).zip params).filter fun ip => decide (k ∈ ip.1)).map Prod.snd
      = ((masks.zip params).filter fun mp => decide (mp.1.getD k 0 ≠ 0)).map Prod.snd := by
  induction masks generalizing params with
  | nil => simp
  | cons m rest ih =>
    cases params with
    | nil => simp
    | cons p ps =>
      rw [List.map_cons, List.zip_cons_cons, List.zip_cons_cons,
        List.filter_cons, List.filter_cons]
      have hk : k < m.length := hm m (List.mem_cons_self m rest)
      have hdeq : decide (k ∈ nonzeroIndices m) = decide (m.getD k 0 ≠ 0) :=
        decide_eq_decide.mpr (mem_nonzeroIndices m k hk)
      have ht := ih ps (fun m2 hm2 => hm m2 (List.mem_cons_of_mem m hm2))
      rw [hdeq]
      cases hd : decide (m.getD k 0 ≠ 0) <;> simp [hd, ht]

theorem filtered_params_set_eq (masks : List Row) (params : List ℚ) (i k : ℕ) (v : ℚ)
    (h0 : (masks.getD i []).getD k 0 = 0) :
    ((masks.zip (params.set i v)).filter fun mp => decide (mp.1.getD k 0 ≠ 0)).map Prod.snd
      = ((masks.zip params).filter fun mp => decide (mp.1.getD k 0 ≠ 0)).map Prod.snd := by
  induction masks generalizing params i with
  | nil => simp
  | cons m rest ih =>
    cases params with
    | nil => simp
    | cons p ps =>
      cases i with
      | zero =>
        have h0m : m.getD k 0 = 0 := by simpa using h0
        have hz : decide (m.getD k 0 ≠ 0) = false := by
          rw [h0m]
          simp
        rw [List.set_cons_zero, List.zip_cons_cons, List.zip_cons_cons,
          List.filter_cons, List.filter_cons, hz, if_neg (by simp),
          if_neg (by simp)]
      | succ j =>
        have ht := ih ps j (by simpa using h0)
        rw [List.set_cons_succ, List.zip_cons_cons, List.zip_cons_cons,
          List.filter_cons, List.filter_cons]
        cases hd : decide (m.getD k 0 ≠ 0) with
        | false =>
          rw [if_neg (by simp), if_neg (by simp)]
          exact ht
        | true =>
          rw [if_pos rfl, if_pos rfl, List.map_cons, List.map_cons, ht]

theorem countDiffs_self (x : List Char) : countDiffs x x = 0 := by
  induction x with
  | nil => rfl
  | cons a t ih => simpa [countDiffs, List.countP_cons] using ih

theorem isInstantaneous_self (g : List Char) (long : Bool) (x : List Char) :
    isInstantaneous g long x x = false := by
  simp [isInstantaneous, countDiffs_self]

theorem getD_map_range (f : ℕ → ℚ) (n k : ℕ) (h : k < n) :
    ((List.range n).map f).getD k 0 = f k := by
  rw [List.getD_eq_getElem?_getD, List.getElem?_map, List.getElem?_range h]
  rfl

theorem predicate2matrix_getD (alphabet : List (List Char))
    (pred : List Char → List Char → Bool) (mask : Option Row) (k : ℕ)
    (hk : k < alphabet.length * alphabet.length) :
    (predicate2matrix alphabet pred mask).getD k 0
      = if maskAllows mask k
          && pred (alphabet.getD (k / alphabet.length) [])
                  (alphabet.getD (k % alphabet.length) []) then 1 else 0 := by
  unfold predicate2matrix
  exact getD_map_range _ _ k hk

theorem length_predicate2matrix (alphabet : List (List Char))
    (pred : List Char → List Char → Bool) (mask : Option Row) :
    (predicate2matrix alphabet pred mask).length
      = alphabet.length * alphabet.length := by
  unfold predicate2matrix
  rw [List.length_map, List.length_range]

theorem diag_lt_sq (M i : ℕ) (hi : i < M) : i * M + i < M * M := by
  have h1 : i * M + i < i * M + M := by omega
  have h2 : i * M + M = (i + 1) * M := by ring
  have h3 : (i + 1) * M ≤ M * M := Nat.mul_le_mul_right M hi
  omega

/-- Embeds the MATRIX section of SubstitutionModel.__init__ in the
predicate case: the instantaneous mask, cast to float. -/
def instantaneousMaskF (alphabet : List (List Char)) (g : List Char)
    (longIndels : Bool) : Row :=
  predicate2matrix alphabet (isInstantaneous g longIndels) none

theorem diag_div_mod (M i : ℕ) (hi : i < M) :
    (i * M + i) / M = i ∧ (i * M + i) % M = i := by
  have hM : 0 < M := by omega
  have he : i * M + i = M * i + i := by ring
  constructor
  · rw [he, Nat.mul_add_div hM, Nat.div_eq_of_lt hi]
    omega
  · rw [he, Nat.mul_add_mod]
    exact Nat.mod_eq_of_lt hi

theorem instantaneousMaskF_diag (alphabet : List (List Char)) (g : List Char)
    (longIndels : Bool) (i : ℕ) (hi : i < alphabet.length) :
    (instantaneousMaskF alphabet g longIndels).getD (i * alphabet.length + i) 0 = 0 := by
  unfold instantaneousMaskF
  rw [predicate2matrix_getD _ _ _ _ (diag_lt_sq alphabet.length i hi)]
  obtain ⟨hdiv, hmod⟩ := diag_div_mod alphabet.length i hi
  rw [hdiv, hmod]
  simp [maskAllows, isInstantaneous_self]

/-- DNA alphabet in cogent order T, C, A, G -/
def dnaAlphabet : List (List Char) := [['T'], ['C'], ['A'], ['G']]

/-- the DNA gap motif -/
def dnaGap : List Char := ['-']

/-- Modelled from the spec: the transition predicate of the nucleotide
model selects the pairs A<->G and C<->T in both directions; the
predicate-parsing module that builds it in the source is an external
collaborator not present under src. -/
def isTransition (x y : List Char) : Bool :=
  (decide (x = ['A']) && decide (y = ['G'])) || (decide (x = ['G']) && decide (y = ['A']))
    || (decide (x = ['C']) && decide (y = ['T'])) || (decide (x = ['T']) && decide (y = ['C']))

/-- instantaneous mask of the 4-motif nucleotide model -/
def nucInstMask : Row := instantaneousMaskF dnaAlphabet dnaGap true

/-- transition parameter mask, restricted to the instantaneous mask as in
adaptPredicate -/
def nucTransitionMask : Row :=
  predicate2matrix dnaAlphabet isTransition (some nucInstMask)

/-- rate matrix of end-to-end scenario A: transition = 2.0 and no other
parameters -/
def nucScenarioRates : Row :=
  calcRateMatrix nucInstMask [nonzeroIndices nucTransitionMask] [2]

/-- C1: for a model built from predicates, each calcRateMatrix entry is
the instantaneous-mask float value multiplied by the values of exactly
the parameters whose mask is set at that entry (unset masks contribute
the multiplicative identity); entries where the instantaneous mask is 0,
in particular the whole diagonal, are 0; no parameter value influences
entries outside its own mask; and the 4-motif nucleotide scenario with
transition = 2.0 has exactly 4 entries equal to 2.0, 8 equal to 1.0 and
a zero diagonal. -/
theorem c1_calcRateMatrix_spec (alphabet : List (List Char)) (g : List Char)
    (longIndels : Bool) (masks : List Row) (params : List ℚ)
    (hm : ∀ m ∈ masks, m.length = alphabet.length * alphabet.length) :
    (∀ k, k < alphabet.length * alphabet.length →
      (calcRateMatrix (instantaneousMaskF alphabet g longIndels)
          (masks.map nonzeroIndices) params).getD k 0
        = (instantaneousMaskF alphabet g longIndels).getD k 0
          * (((masks.zip params).filter
              fun mp => decide (mp.1.getD k 0 ≠ 0)).map Prod.snd).prod)
    ∧ (∀ k, k < alphabet.length * alphabet.length →
        (instantaneousMaskF alphabet g longIndels).getD k 0 = 0 →
      (calcRateMatrix (instantaneousMaskF alphabet g longIndels)
          (masks.map nonzeroIndices) params).getD k 0 = 0)
    ∧ (∀ i, i < alphabet.length →
      (calcRateMatrix (instantaneousMaskF alphabet g longIndels)
          (masks.map nonzeroIndices) params).getD (i * alphabet.length + i) 0 = 0)
    ∧ (∀ i v k, k < alphabet.length * alphabet.length →
        (masks.getD i []).getD k 0 = 0 →
      (calcRateMatrix (instantaneousMaskF alphabet g longIndels)
          (masks.map nonzeroIndices) (params.set i v)).getD k 0
        = (calcRateMatrix (instantaneousMaskF alphabet g longIndels)
            (masks.map nonzeroIndices) params).getD k 0)
    ∧ ((nucScenarioRates.countP fun x => decide (x = 2)) = 4
      ∧ (nucScenarioRates.countP fun x => decide (x = 1)) = 8
      ∧ ∀ i, i < 4 → nucScenarioRates.getD (i * 4 + i) 0 = 0) := by
  have hlen : (instantaneousMaskF alphabet g longIndels).length
      = alphabet.length * alphabet.length := by
    unfold instantaneousMaskF
    exact length_predicate2matrix _ _ _
  have main : ∀ (ps : List ℚ) (k : ℕ), k < alphabet.length * alphabet.length →
      (calcRateMatrix (instantaneousMaskF alphabet g longIndels)
          (masks.map nonzeroIndices) ps).getD k 0
        = (instantaneousMaskF alphabet g longIndels).getD k 0
          * (((masks.zip ps).filter
              fun mp => decide (mp.1.getD k 0 ≠ 0)).map Prod.snd).prod := by
    intro ps k hk
    unfold calcRateMatrix
    rw [hlen]
    rw [rate_foldl_getD _ _ _ hlen k hk]
    rw [zip_map_filter_eq masks ps k (fun m hm2 => by rw [hm m hm2]; exact hk)]
  refine ⟨main params, ?_, ?_, ?_, ?_⟩
  · intro k hk h0
    rw [main params k hk, h0, zero_mul]
  · intro i hi
    rw [main params _ (diag_lt_sq alphabet.length i hi),
      instantaneousMaskF_diag alphabet g longIndels i hi, zero_mul]
  · intro i v k hk h0
    rw [main (params.set i v) k hk, main params k hk,
      filtered_params_set_eq masks params i k v h0]
  · refine ⟨by with_unfolding_all decide, by with_unfolding_all decide, ?_⟩
    intro i hi
    interval_cases i <;> with_unfolding_all decide

/-- C1 witness: the characterization applied to the concrete nucleotide
scenario at the flat index of the pair (T, C). -/
theorem c1_witness :
    (calcRateMatrix (instantaneousMaskF dnaAlphabet dnaGap true)
        ([nucTransitionMask].map nonzeroIndices) [2]).getD 1 0
      = (instantaneousMaskF dnaAlphabet dnaGap true).getD 1 0
        * ((([nucTransitionMask].zip [2]).filter
            fun mp => decide (mp.1.getD 1 0 ≠ 0)).map Prod.snd).prod :=
  (c1_calcRateMatrix_spec dnaAlphabet dnaGap true [nucTransitionMask] [2]
    (by with_unfolding_all decide)).1 1 (by with_unfolding_all decide)

/-- pairs whose two strands agree -/
def eqPairs (ps : List (Char × Char)) : Prop := ∀ p ∈ ps, p.1 = p.2

/-- one position of a gap run at absolute position i: the strands differ
and the gap character sits on the recorded strand (0 when the first
strand holds the gap, as in the index(G) computation of the source) -/
def gapRunPair (g : List Char) (i strand : ℕ) (p : Char × Char) : Prop :=
  p.1 ≠ p.2 ∧ ((strand = 0 ∧ p.1 = g.getD i ' ')
    ∨ (strand = 1 ∧ p.1 ≠ g.getD i ' ' ∧ p.2 = g.getD i ' '))

/-- a contiguous run of gap pairs starting at absolute position i,
confined to one strand -/
def gapRun (g : List Char) (i strand : ℕ) : List (Char × Char) → Prop
  | [] => True
  | p :: ps => gapRunPair g i strand p ∧ gapRun g (i+1) strand ps

/-- declarative reading of _isAnyIndel: the motifs differ and the zipped
pairs split into an equal prefix, one contiguous single-strand run of
gap pairs, and an equal suffix -/
def specAnyIndel (g x y : List Char) : Prop :=
  x ≠ y ∧ ∃ p q r strand, x.zip y = p ++ q ++ r
    ∧ eqPairs p ∧ gapRun g p.length strand q ∧ eqPairs r

theorem eqPairs_nil : eqPairs [] := fun p hp => absurd hp (List.not_mem_nil p)

theorem eqPairs_cons_iff (p : Char × Char) (ps : List (Char × Char)) :
    eqPairs (p :: ps) ↔ p.1 = p.2 ∧ eqPairs ps := by
  constructor
  · intro h
    exact ⟨h p (List.mem_cons_self p ps), fun q hq => h q (List.mem_cons_of_mem p hq)⟩
  · rintro ⟨h1, h2⟩ q hq
    rcases List.mem_cons.mp hq with rfl | hq2
    · exact h1
    · exact h2 q hq2

theorem anyIndelLoop_nil (g : List Char) (i : ℕ) (gs ge : Option ℕ) (gstr : ℕ) :
    anyIndelLoop g i gs ge gstr [] = true := rfl

theorem anyIndelLoop_eq_step (g : List Char) (i : ℕ) (gs ge : Option ℕ) (gstr : ℕ)
    (X Y : Char) (rest : List (Char × Char)) (hxy : X = Y) :
    anyIndelLoop g i gs ge gstr ((X, Y) :: rest)
      = match gs with
        | none => anyIndelLoop g (i+1) none ge gstr rest
        | some s => anyIndelLoop g (i+1) (some s) (some i) gstr rest := by
  simp only [anyIndelLoop]
  rw [if_neg (by simp [hxy])]

theorem anyIndelLoop_diff_nongap (g : List Char) (i : ℕ) (gs ge : Option ℕ)
    (gstr : ℕ) (X Y : Char) (rest : List (Char × Char)) (hxy : X ≠ Y)
    (hng : X ≠ g.getD i ' ' ∧ Y ≠ g.getD i ' ') :
    anyIndelLoop g i gs ge gstr ((X, Y) :: rest) = false := by
  simp only [anyIndelLoop]
  rw [if_pos hxy, if_pos hng]

theorem anyIndelLoop_diff_gap_none (g : List Char) (i : ℕ) (ge : Option ℕ)
    (gstr : ℕ) (X Y : Char) (rest : List (Char × Char)) (hxy : X ≠ Y)
    (hg : ¬(X ≠ g.getD i ' ' ∧ Y ≠ g.getD i ' ')) :
    anyIndelLoop g i none ge gstr ((X, Y) :: rest)
      = anyIndelLoop g (i+1) (some i) ge (if X = g.getD i ' ' then 0 else 1) rest := by
  simp only [anyIndelLoop]
  rw [if_pos hxy, if_neg hg]

theorem anyIndelLoop_diff_gap_some (g : List Char) (i s : ℕ) (ge : Option ℕ)
    (gstr : ℕ) (X Y : Char) (rest : List (Char × Char)) (hxy : X ≠ Y)
    (hg : ¬(X ≠ g.getD i ' ' ∧ Y ≠ g.getD i ' ')) :
    anyIndelLoop g i (some s) ge gstr ((X, Y) :: rest)
      = if ge.isSome ∨ (if X = g.getD i ' ' then 0 else 1) ≠ gstr then false
        else anyIndelLoop g (i+1) (some s) ge gstr rest := by
  simp only [anyIndelLoop]
  rw [if_pos hxy, if_neg hg]

theorem gapRunPair_strand (g : List Char) (i strand : ℕ) (X Y : Char)
    (h : gapRunPair g i strand (X, Y)) :
    strand = if X = g.getD i ' ' then 0 else 1 := by
  rcases h.2 with ⟨h0, hg⟩ | ⟨h1, hng, hg⟩
  · rw [h0, if_pos hg]
  · rw [h1, if_neg hng]

theorem gapRunPair_intro (g : List Char) (i : ℕ) (X Y : Char)
    (hxy : X ≠ Y) (hg : ¬(X ≠ g.getD i ' ' ∧ Y ≠ g.getD i ' ')) :
    gapRunPair g i (if X = g.getD i ' ' then 0 else 1) (X, Y) := by
  refine ⟨hxy, ?_⟩
  by_cases hX : X = g.getD i ' '
  · exact Or.inl ⟨by rw [if_pos hX], hX⟩
  · have hY : Y = g.getD i ' ' := by
      by_contra hY
      exact hg ⟨hX, hY⟩
    exact Or.inr ⟨by rw [if_neg hX], hX, hY⟩

theorem loopC_iff (g : List Char) (s strand : ℕ) :
    ∀ (ps : List (Char × Char)) (i e : ℕ),
      anyIndelLoop g i (some s) (some e) strand ps = true ↔ eqPairs ps := by
  intro ps
  induction ps with
  | nil =>
    intro i e
    simp [anyIndelLoop_nil, eqPairs_nil]
  | cons pr rest ih =>
    intro i e
    obtain ⟨X, Y⟩ := pr
    by_cases hxy : X = Y
    · rw [anyIndelLoop_eq_step g i (some s) (some e) strand X Y rest hxy]
      rw [ih (i+1) i, eqPairs_cons_iff]
      simp [hxy]
    · rw [eqPairs_cons_iff]
      by_cases hng : X ≠ g.getD i ' ' ∧ Y ≠ g.getD i ' '
      · rw [anyIndelLoop_diff_nongap g i (some s) (some e) strand X Y rest hxy hng]
        simp [hxy]
      · rw [anyIndelLoop_diff_gap_some g i s (some e) strand X Y rest hxy hng]
        have hcond : ((some e : Option ℕ).isSome = true)
            ∨ ((if X = g.getD i ' ' then 0 else 1) ≠ strand) := Or.inl rfl
        rw [if_pos hcond]
        simp [hxy]

theorem loopB_iff (g : List Char) (s strand : ℕ) :
    ∀ (ps : List (Char × Char)) (i : ℕ),
      anyIndelLoop g i (some s) none strand ps = true
      ↔ ∃ q r, ps = q ++ r ∧ gapRun g i strand q ∧ eqPairs r := by
  intro ps
  induction ps with
  | nil =>
    intro i
    constructor
    · intro _
      exact ⟨[], [], rfl, trivial, eqPairs_nil⟩
    · intro _
      rfl
  | cons pr rest ih =>
    intro i
    obtain ⟨X, Y⟩ := pr
    by_cases hxy : X = Y
    · rw [anyIndelLoop_eq_step g i (some s) none strand X Y rest hxy]
      rw [loopC_iff g s strand rest (i+1) i]
      constructor
      · intro hr
        refine ⟨[], (X, Y) :: rest, rfl, trivial, ?_⟩
        rw [eqPairs_cons_iff]
        exact ⟨hxy, hr⟩
      · rintro ⟨q, r, hsplit, hq, hr⟩
        cases q with
        | nil =>
          simp only [List.nil_append] at hsplit
          rw [← hsplit] at hr
          exact ((eqPairs_cons_iff _ _).mp hr).2
        | cons q0 qtl =>
          simp only [List.cons_append] at hsplit
          injection hsplit with h1 h2
          rw [← h1] at hq
          exact absurd hq.1.1 (by simpa using hxy)
    · by_cases hng : X ≠ g.getD i ' ' ∧ Y ≠ g.getD i ' '
      · rw [anyIndelLoop_diff_nongap g i (some s) none strand X Y rest hxy hng]
        constructor
        · intro h
          exact absurd h (by simp)
        · rintro ⟨q, r, hsplit, hq, hr⟩
          cases q with
          | nil =>
            simp only [List.nil_append] at hsplit
            rw [← hsplit] at hr
            exact absurd ((eqPairs_cons_iff _ _).mp hr).1 hxy
          | cons q0 qtl =>
            simp only [List.cons_append] at hsplit
            injection hsplit with h1 h2
            rw [← h1] at hq
            rcases hq.1.2 with ⟨_, hgap⟩ | ⟨_, _, hgap⟩
            · exact absurd hgap hng.1
            · exact absurd hgap hng.2
      · rw [anyIndelLoop_diff_gap_some g i s none strand X Y rest hxy hng]
        by_cases hstr : (if X = g.getD i ' ' then 0 else 1) = strand
        · have hcond : ¬(((none : Option ℕ).isSome = true)
              ∨ ((if X = g.getD i ' ' then 0 else 1) ≠ strand)) := by
            intro hc
            rcases hc with hc | hc
            · simp at hc
            · exact hc hstr
          rw [if_neg hcond]
          rw [ih (i+1)]
          constructor
          · rintro ⟨q2, r2, rfl, hq2, hr2⟩
            refine ⟨(X, Y) :: q2, r2, rfl, ⟨?_, hq2⟩, hr2⟩
            rw [← hstr]
            exact gapRunPair_intro g i X Y hxy hng
          · rintro ⟨q, r, hsplit, hq, hr⟩
            cases q with
            | nil =>
              simp only [List.nil_append] at hsplit
              rw [← hsplit] at hr
              exact absurd ((eqPairs_cons_iff _ _).mp hr).1 hxy
            | cons q0 qtl =>
              simp only [List.cons_append] at hsplit
              injection hsplit with h1 h2
              rw [← h1] at hq
              exact ⟨qtl, r, h2, hq.2, hr⟩
        · rw [if_pos (Or.inr hstr)]
          constructor
          · intro h
            exact absurd h (by simp)
          · rintro ⟨q, r, hsplit, hq, hr⟩
            cases q with
            | nil =>
              simp only [List.nil_append] at hsplit
              rw [← hsplit] at hr
              exact absurd ((eqPairs_cons_iff _ _).mp hr).1 hxy
            | cons q0 qtl =>
              simp only [List.cons_append] at hsplit
              injection hsplit with h1 h2
              rw [← h1] at hq
              exact absurd (gapRunPair_strand g i strand X Y hq.1).symm hstr

theorem loopA_iff (g : List Char) :
    ∀ (ps : List (Char × Char)) (i strand0 : ℕ),
      anyIndelLoop g i none none strand0 ps = true
      ↔ ∃ p q r strand, ps = p ++ q ++ r ∧ eqPairs p
          ∧ gapRun g (i + p.length) strand q ∧ eqPairs r := by
  intro ps
  induction ps with
  | nil =>
    intro i strand0
    constructor
    · intro _
      exact ⟨[], [], [], 0, rfl, eqPairs_nil, trivial, eqPairs_nil⟩
    · intro _
      rfl
  | cons pr rest ih =>
    intro i strand0
    obtain ⟨X, Y⟩ := pr
    by_cases hxy : X = Y
    · rw [anyIndelLoop_eq_step g i none none strand0 X Y rest hxy]
      rw [ih (i+1) strand0]
      constructor
      · rintro ⟨p, q, r, strand, rfl, hp, hq, hr⟩
        refine ⟨(X, Y) :: p, q, r, strand, rfl, ?_, ?_, hr⟩
        · rw [eqPairs_cons_iff]
          exact ⟨hxy, hp⟩
        · rw [List.length_cons]
          have heq : i + (p.length + 1) = i + 1 + p.length := by omega
          rw [heq]
          exact hq
      · rintro ⟨p, q, r, strand, hsplit, hp, hq, hr⟩
        cases p with
        | cons p0 ptl =>
          simp only [List.cons_append] at hsplit
          injection hsplit with h1 h2
          rw [← h1] at hp
          rw [eqPairs_cons_iff] at hp
          refine ⟨ptl, q, r, strand, h2, hp.2, ?_, hr⟩
          simp only [List.length_cons] at hq
          have heq : i + 1 + ptl.length = i + (ptl.length + 1) := by omega
          rw [heq]
          exact hq
        | nil =>
          simp only [List.nil_append] at hsplit
          cases q with
          | nil =>
            simp only [List.nil_append] at hsplit
            refine ⟨rest, [], [], strand, by simp, ?_, trivial, eqPairs_nil⟩
            rw [← hsplit] at hr
            exact ((eqPairs_cons_iff _ _).mp hr).2
          | cons q0 qtl =>
            simp only [List.cons_append] at hsplit
            injection hsplit with h1 h2
            rw [← h1] at hq
            simp only [List.length_nil, Nat.add_zero] at hq
            exact absurd hq.1.1 (by simpa using hxy)
    · by_cases hng : X ≠ g.getD i ' ' ∧ Y ≠ g.getD i ' '
      · rw [anyIndelLoop_diff_nongap g i none none strand0 X Y rest hxy hng]
        constructor
        · intro h
          exact absurd h (by simp)
        · rintro ⟨p, q, r, strand, hsplit, hp, hq, hr⟩
          cases p with
          | cons p0 ptl =>
            simp only [List.cons_append] at hsplit
            injection hsplit with h1 h2
            rw [← h1] at hp
            exact absurd ((eqPairs_cons_iff _ _).mp hp).1 hxy
          | nil =>
            simp only [List.nil_append] at hsplit
            cases q with
            | nil =>
              simp only [List.nil_append] at hsplit
              rw [← hsplit] at hr
              exact absurd ((eqPairs_cons_iff _ _).mp hr).1 hxy
            | cons q0 qtl =>
              simp only [List.cons_append] at hsplit
              injection hsplit with h1 h2
              rw [← h1] at hq
              simp only [List.length_nil, Nat.add_zero] at hq
              rcases hq.1.2 with ⟨_, hgap⟩ | ⟨_, _, hgap⟩
              · exact absurd hgap hng.1
              · exact absurd hgap hng.2
      · rw [anyIndelLoop_diff_gap_none g i none strand0 X Y rest hxy hng]
        rw [loopB_iff g i (if X = g.getD i ' ' then 0 else 1) rest (i+1)]
        constructor
        · rintro ⟨q2, r2, rfl, hq2, hr2⟩
          refine ⟨[], (X, Y) :: q2, r2, if X = g.getD i ' ' then 0 else 1,
            rfl, eqPairs_nil, ?_, hr2⟩
          simp only [List.length_nil, Nat.add_zero]
          exact ⟨gapRunPair_intro g i X Y hxy hng, hq2⟩
        · rintro ⟨p, q, r, strand, hsplit, hp, hq, hr⟩
          cases p with
          | cons p0 ptl =>
            simp only [List.cons_append] at hsplit
            injection hsplit with h1 h2
            rw [← h1] at hp
            exact absurd ((eqPairs_cons_iff _ _).mp hp).1 hxy
          | nil =>
            simp only [List.nil_append] at hsplit
            cases q with
            | nil =>
              simp only [List.nil_append] at hsplit
              rw [← hsplit] at hr
              exact absurd ((eqPairs_cons_iff _ _).mp hr).1 hxy
            | cons q0 qtl =>
              simp only [List.cons_append] at hsplit
              injection hsplit with h1 h2
              rw [← h1] at hq
              simp only [List.length_nil, Nat.add_zero] at hq
              have hs := gapRunPair_strand g i strand X Y hq.1
              exact ⟨qtl, r, h2, hs ▸ hq.2, hr⟩

theorem isAnyIndel_iff_spec (g x y : List Char) :
    isAnyIndel g x y = true ↔ specAnyIndel g x y := by
  unfold isAnyIndel specAnyIndel
  by_cases hxy : x = y
  · rw [if_pos hxy]
    simp [hxy]
  · rw [if_neg hxy]
    rw [loopA_iff g (x.zip y) 0 0]
    constructor
    · rintro ⟨p, q, r, strand, hsplit, hp, hq, hr⟩
      exact ⟨hxy, p, q, r, strand, hsplit, hp, by simpa using hq, hr⟩
    · rintro ⟨_, p, q, r, strand, hsplit, hp, hq, hr⟩
      exact ⟨p, q, r, strand, hsplit, hp, by simpa using hq, hr⟩

theorem sum_map_ite_one (l : List ℕ) (p : ℕ → Bool) :
    ((l.map fun k => if p k then (1:ℚ) else 0).sum) = (l.countP p : ℚ) := by
  induction l with
  | nil => simp
  | cons a t ih =>
    rw [List.map_cons, List.sum_cons, List.countP_cons, ih]
    cases hp : p a with
    | true =>
      simp only [if_pos rfl, ite_true]
      push_cast
      ring
    | false =>
      simp only [Bool.false_eq_true, if_false, ite_false]
      push_cast
      ring

theorem countP_or_disjoint (l : List ℕ) (p q : ℕ → Bool)
    (hdisj : ∀ k ∈ l, ¬(p k = true ∧ q k = true)) :
    l.countP (fun k => p k || q k) = l.countP p + l.countP q := by
  induction l with
  | nil => rfl
  | cons a t ih =>
    rw [List.countP_cons, List.countP_cons, List.countP_cons,
      ih (fun k hk => hdisj k (List.mem_cons_of_mem a hk))]
    have hda := hdisj a (List.mem_cons_self a t)
    cases hp : p a <;> cases hq : q a <;> simp [hp, hq] at hda ⊢ <;> omega

/-- the motif pair at flat index k differs in exactly one position -/
def diffOnePred (alphabet : List (List Char)) (k : ℕ) : Bool :=
  decide (countDiffs (alphabet.getD (k / alphabet.length) [])
    (alphabet.getD (k % alphabet.length) []) = 1)

/-- the motif pair at flat index k is a configured indel pair -/
def indelPred (g : List Char) (long : Bool) (alphabet : List (List Char)) (k : ℕ) : Bool :=
  decide (1 < countDiffs (alphabet.getD (k / alphabet.length) [])
      (alphabet.getD (k % alphabet.length) []))
    && long
    && isAnyIndel g (alphabet.getD (k / alphabet.length) [])
        (alphabet.getD (k % alphabet.length) [])

/-- C4: _isInstantaneous is true exactly when the motifs differ in one
position, or differ in more than one position with long indels enabled
and the differences forming a single contiguous run of gap characters
confined to one strand (specAnyIndel, which also rejects x = y); it is
false on the diagonal, the diagonal of the instantaneous mask is 0, and
the total of the mask is the count of single-position-difference pairs plus the
count of configured indel pairs. -/
theorem c4_isInstantaneous_spec (g : List Char) (long : Bool) :
    (∀ x y, isInstantaneous g long x y = true
      ↔ (countDiffs x y = 1
        ∨ (1 < countDiffs x y ∧ long = true ∧ specAnyIndel g x y)))
    ∧ (∀ x, isInstantaneous g long x x = false)
    ∧ (∀ (alphabet : List (List Char)) (i : ℕ), i < alphabet.length →
        (instantaneousMaskF alphabet g long).getD (i * alphabet.length + i) 0 = 0)
    ∧ (∀ (alphabet : List (List Char)),
        (instantaneousMaskF alphabet g long).sum
          = ((List.range (alphabet.length * alphabet.length)).countP
              (diffOnePred alphabet) : ℚ)
          + ((List.range (alphabet.length * alphabet.length)).countP
              (indelPred g long alphabet) : ℚ)) := by
  refine ⟨?_, isInstantaneous_self g long,
    fun alphabet i hi => instantaneousMaskF_diag alphabet g long i hi, ?_⟩
  · intro x y
    rw [isInstantaneous]
    simp only [Bool.or_eq_true, Bool.and_eq_true, decide_eq_true_eq]
    rw [isAnyIndel_iff_spec]
    tauto
  · intro alphabet
    unfold instantaneousMaskF predicate2matrix
    have hsum := sum_map_ite_one (List.range (alphabet.length * alphabet.length))
      (fun k => diffOnePred alphabet k || indelPred g long alphabet k)
    have hdisj : ∀ k ∈ List.range (alphabet.length * alphabet.length),
        ¬(diffOnePred alphabet k = true ∧ indelPred g long alphabet k = true) := by
      intro k _ hc
      have h1 := of_decide_eq_true hc.1
      have h2 := of_decide_eq_true
        ((Bool.and_eq_true _ _).mp ((Bool.and_eq_true _ _).mp hc.2).1).1
      omega
    have hcount := countP_or_disjoint (List.range (alphabet.length * alphabet.length))
      (diffOnePred alphabet) (indelPred g long alphabet) hdisj
    rw [show ((List.range (alphabet.length * alphabet.length)).map fun k =>
        if (maskAllows none k && isInstantaneous g long
            (alphabet.getD (k / alphabet.length) [])
            (alphabet.getD (k % alphabet.length) [])) = true then (1:ℚ) else 0)
      = ((List.range (alphabet.length * alphabet.length)).map fun k =>
        if (diffOnePred alphabet k || indelPred g long alphabet k) = true
        then (1:ℚ) else 0) from rfl]
    rw [hsum, hcount]
    push_cast
    ring

/-- C4 witness: the equivalence and the diagonal statement exercised on
the nucleotide alphabet. -/
theorem c4_witness :
    (isInstantaneous dnaGap true ['T'] ['C'] = true
      ↔ (countDiffs ['T'] ['C'] = 1
        ∨ (1 < countDiffs ['T'] ['C'] ∧ true = true ∧ specAnyIndel dnaGap ['T'] ['C'])))
    ∧ (instantaneousMaskF dnaAlphabet dnaGap true).getD
        (1 * dnaAlphabet.length + 1) 0 = 0 :=
  ⟨(c4_isInstantaneous_spec dnaGap true).1 ['T'] ['C'],
   (c4_isInstantaneous_spec dnaGap true).2.2.1 dnaAlphabet 1 (by decide)⟩

/-- Embeds the m2w table of _calc_monomer_tuple_indices: the monomer
index occupying each position of each word (the w2m indicator array the
source builds alongside is not consumed by the claims). -/
def calc_monomer_tuple_indices (ta : List (List Char)) (monomers : List Char) :
    List (List ℕ) :=
  ta.map fun w => w.map fun ch => monomers.indexOf ch

/-- the unnormalized word probabilities of calcWordProbs: per word, the
product of the monomer probabilities at its positions, from one shared
vector or one vector per position -/
def calcWordProbsRaw (m2w : List (List ℕ)) (mps : List (List ℚ)) : List ℚ :=
  match mps with
  | [mp] => m2w.map fun row => (row.map fun c => mp.getD c 0).prod
  | _ => m2w.map fun row =>
      ((List.range mps.length).map fun j =>
        (mps.getD j []).getD (row.getD j 0) 0).prod

/-- Embeds SubstitutionModel.calcWordProbs: the per-word products,
normalized by their total (result /= result.sum()). -/
def calcWordProbs (m2w : List (List ℕ)) (mps : List (List ℚ)) : List ℚ :=
  (calcWordProbsRaw m2w mps).map fun v => v / (calcWordProbsRaw m2w mps).sum

theorem sum_map_div (l : List ℚ) (s : ℚ) :
    (l.map fun v => v / s).sum = l.sum / s := by
  induction l with
  | nil => simp
  | cons a t ih =>
    rw [List.map_cons, List.sum_cons, List.sum_cons, ih]
    ring

theorem getD_map_div (l : List ℚ) (s : ℚ) (w : ℕ) (hw : w < l.length) :
    (l.map fun v => v / s).getD w 0 = l.getD w 0 / s := by
  induction l generalizing w with
  | nil => simp at hw
  | cons a t ih =>
    cases w with
    | zero => simp
    | succ j => simpa using ih j (by simpa using hw)

theorem getD_map_general (f : List ℕ → ℚ) (l : List (List ℕ)) (w : ℕ)
    (hw : w < l.length) :
    (l.map f).getD w 0 = f (l.getD w []) := by
  induction l generalizing w with
  | nil => simp at hw
  | cons a t ih =>
    cases w with
    | zero => simp
    | succ j => simpa using ih j (by simpa using hw)

theorem sum_of_constant (l : List ℚ) (c : ℚ) (h : ∀ v ∈ l, v = c) :
    l.sum = l.length * c := by
  induction l with
  | nil => simp
  | cons a t ih =>
    rw [List.sum_cons, ih (fun v hv => h v (List.mem_cons_of_mem a hv)),
      h a (List.mem_cons_self a t), List.length_cons]
    push_cast
    ring

theorem getD_of_all_eq (l : List ℚ) (c : ℚ) (h : ∀ v ∈ l, v = c) (w : ℕ)
    (hw : w < l.length) : l.getD w 0 = c := by
  induction l generalizing w with
  | nil => simp at hw
  | cons a t ih =>
    cases w with
    | zero => simpa using h a (List.mem_cons_self a t)
    | succ j =>
      simpa using ih (fun v hv => h v (List.mem_cons_of_mem a hv)) j (by simpa using hw)

theorem getD_replicate (c : ℚ) (n k : ℕ) (h : k < n) :
    (List.replicate n c).getD k 0 = c := by
  induction n generalizing k with
  | zero => simp at h
  | succ m ih =>
    cases k with
    | zero => simp [List.replicate]
    | succ j => simpa [List.replicate] using ih j (by omega)

theorem prod_map_uniform (row : List ℕ) (M : ℕ) (h : ∀ c ∈ row, c < M) :
    (row.map fun c => (List.replicate M (1 / (M:ℚ))).getD c 0).prod
      = (1 / (M:ℚ)) ^ row.length := by
  induction row with
  | nil => simp
  | cons a t ih =>
    rw [List.map_cons, List.prod_cons,
      ih (fun c hc => h c (List.mem_cons_of_mem a hc)),
      getD_replicate _ _ _ (h a (List.mem_cons_self a t)), List.length_cons]
    ring

theorem calcWordProbsRaw_single_length (m2w : List (List ℕ)) (mp : List ℚ) :
    (calcWordProbsRaw m2w [mp]).length = m2w.length := by
  show (m2w.map _).length = m2w.length
  rw [List.length_map]

theorem calcWordProbs_getD_single (m2w : List (List ℕ)) (mp : List ℚ) (w : ℕ)
    (hw : w < m2w.length) :
    (calcWordProbs m2w [mp]).getD w 0
      = ((m2w.getD w []).map fun c => mp.getD c 0).prod
        / (calcWordProbsRaw m2w [mp]).sum := by
  unfold calcWordProbs
  rw [getD_map_div _ _ w (by rw [calcWordProbsRaw_single_length]; exact hw)]
  congr 1
  show (m2w.map fun row => (row.map fun c => mp.getD c 0).prod).getD w 0 = _
  rw [getD_map_general _ m2w w hw]

theorem calcWordProbs_getD_multi (m2w : List (List ℕ)) (mp0 mp1 : List ℚ)
    (mrest : List (List ℚ)) (w : ℕ) (hw : w < m2w.length) :
    (calcWordProbs m2w (mp0 :: mp1 :: mrest)).getD w 0
      = ((List.range (mp0 :: mp1 :: mrest).length).map fun j =>
          ((mp0 :: mp1 :: mrest).getD j []).getD ((m2w.getD w []).getD j 0) 0).prod
        / (calcWordProbsRaw m2w (mp0 :: mp1 :: mrest)).sum := by
  unfold calcWordProbs
  have hlen : (calcWordProbsRaw m2w (mp0 :: mp1 :: mrest)).length = m2w.length := by
    show (m2w.map _).length = m2w.length
    rw [List.length_map]
  rw [getD_map_div _ _ w (by rw [hlen]; exact hw)]
  congr 1
  show (m2w.map fun row => ((List.range (mp0 :: mp1 :: mrest).length).map fun j =>
      ((mp0 :: mp1 :: mrest).getD j []).getD (row.getD j 0) 0).prod).getD w 0 = _
  rw [getD_map_general _ m2w w hw]

theorem calcWordProbs_sum_one (m2w : List (List ℕ)) (mps : List (List ℚ))
    (hs : (calcWordProbsRaw m2w mps).sum ≠ 0) :
    (calcWordProbs m2w mps).sum = 1 := by
  unfold calcWordProbs
  rw [sum_map_div]
  exact div_self hs

theorem calcWordProbsRaw_uniform (m2w : List (List ℕ)) (L M : ℕ)
    (hrows : ∀ row ∈ m2w, row.length = L ∧ ∀ c ∈ row, c < M) :
    ∀ v ∈ calcWordProbsRaw m2w [List.replicate M (1 / (M:ℚ))],
      v = (1 / (M:ℚ)) ^ L := by
  intro v hv
  have hv2 : v ∈ m2w.map fun row =>
      (row.map fun c => (List.replicate M (1 / (M:ℚ))).getD c 0).prod := hv
  obtain ⟨row, hrow, rfl⟩ := List.mem_map.mp hv2
  obtain ⟨hlenrow, hbound⟩ := hrows row hrow
  rw [← hlenrow]
  exact prod_map_uniform row M hbound

theorem calcWordProbs_uniform (m2w : List (List ℕ)) (L M : ℕ) (hM : 0 < M)
    (hrows : ∀ row ∈ m2w, row.length = L ∧ ∀ c ∈ row, c < M)
    (hcount : m2w.length = M ^ L) :
    (∀ w, w < m2w.length →
      (calcWordProbs m2w [List.replicate M (1 / (M:ℚ))]).getD w 0 = 1 / (M:ℚ) ^ L)
    ∧ (calcWordProbs m2w [List.replicate M (1 / (M:ℚ))]).sum = 1
    ∧ |(calcWordProbs m2w [List.replicate M (1 / (M:ℚ))]).sum - 1| < 1 / 1000000 := by
  have hMQ : (M:ℚ) ≠ 0 := by
    rw [Nat.cast_ne_zero]
    omega
  have hc : (1 / (M:ℚ)) ^ L ≠ 0 := pow_ne_zero _ (one_div_ne_zero hMQ)
  have hN : ((M:ℚ)) ^ L ≠ 0 := pow_ne_zero _ hMQ
  have hall := calcWordProbsRaw_uniform m2w L M hrows
  have hsum : (calcWordProbsRaw m2w [List.replicate M (1 / (M:ℚ))]).sum
      = ((M:ℚ)) ^ L * (1 / (M:ℚ)) ^ L := by
    rw [sum_of_constant _ _ hall, calcWordProbsRaw_single_length, hcount]
    push_cast
    ring
  have hs_ne : (calcWordProbsRaw m2w [List.replicate M (1 / (M:ℚ))]).sum ≠ 0 := by
    rw [hsum]
    exact mul_ne_zero hN hc
  have hone := calcWordProbs_sum_one m2w [List.replicate M (1 / (M:ℚ))] hs_ne
  refine ⟨?_, hone, ?_⟩
  · intro w hw
    unfold calcWordProbs
    rw [getD_map_div _ _ w (by rw [calcWordProbsRaw_single_length]; exact hw)]
    rw [getD_of_all_eq _ _ hall w (by rw [calcWordProbsRaw_single_length]; exact hw)]
    rw [hsum]
    field_simp
  · rw [hone]
    norm_num

/-- C5: calcWordProbs assigns each word the product, over its positions,
of the probability of the monomer occupying that position (shared vector
or one vector per position), normalized by the total; with uniform
monomer probabilities over a full word alphabet every word receives
1/M^L and the total is exactly 1, in particular within tolerance 1e-6. -/
theorem c5_calcWordProbs_spec :
    (∀ (m2w : List (List ℕ)) (mp : List ℚ) (w : ℕ), w < m2w.length →
      (calcWordProbs m2w [mp]).getD w 0
        = ((m2w.getD w []).map fun c => mp.getD c 0).prod
          / (calcWordProbsRaw m2w [mp]).sum)
    ∧ (∀ (m2w : List (List ℕ)) (mp0 mp1 : List ℚ) (mrest : List (List ℚ)) (w : ℕ),
        w < m2w.length →
      (calcWordProbs m2w (mp0 :: mp1 :: mrest)).getD w 0
        = ((List.range (mp0 :: mp1 :: mrest).length).map fun j =>
            ((mp0 :: mp1 :: mrest).getD j []).getD ((m2w.getD w []).getD j 0) 0).prod
          / (calcWordProbsRaw m2w (mp0 :: mp1 :: mrest)).sum)
    ∧ (∀ (m2w : List (List ℕ)) (mps : List (List ℚ)),
        (calcWordProbsRaw m2w mps).sum ≠ 0 → (calcWordProbs m2w mps).sum = 1)
    ∧ (∀ (m2w : List (List ℕ)) (L M : ℕ), 0 < M →
        (∀ row ∈ m2w, row.length = L ∧ ∀ c ∈ row, c < M) →
        m2w.length = M ^ L →
        (∀ w, w < m2w.length →
          (calcWordProbs m2w [List.replicate M (1 / (M:ℚ))]).getD w 0 = 1 / (M:ℚ) ^ L)
        ∧ (calcWordProbs m2w [List.replicate M (1 / (M:ℚ))]).sum = 1
        ∧ |(calcWordProbs m2w [List.replicate M (1 / (M:ℚ))]).sum - 1| < 1 / 1000000) :=
  ⟨calcWordProbs_getD_single, calcWordProbs_getD_multi, calcWordProbs_sum_one,
    calcWordProbs_uniform⟩

/-- C5 witness: the uniform case on the full 2-letter word alphabet over
a 2-monomer alphabet, every word getting probability 1/4. -/
theorem c5_witness :
    (∀ w, w < (calc_monomer_tuple_indices
        [['A','A'], ['A','B'], ['B','A'], ['B','B']] ['A','B']).length →
      (calcWordProbs (calc_monomer_tuple_indices
          [['A','A'], ['A','B'], ['B','A'], ['B','B']] ['A','B'])
        [List.replicate 2 (1 / (2:ℚ))]).getD w 0 = 1 / (2:ℚ) ^ 2)
    ∧ (calcWordProbs (calc_monomer_tuple_indices
          [['A','A'], ['A','B'], ['B','A'], ['B','B']] ['A','B'])
        [List.replicate 2 (1 / (2:ℚ))]).sum = 1
    ∧ |(calcWordProbs (calc_monomer_tuple_indices
          [['A','A'], ['A','B'], ['B','A'], ['B','B']] ['A','B'])
        [List.replicate 2 (1 / (2:ℚ))]).sum - 1| < 1 / 1000000 :=
  c5_calcWordProbs_spec.2.2.2 _ 2 2 (by decide) (by decide) (by decide)

/-- Embeds the diff_pos helper of _calc_monomer_matrix_indices: the
positions at which two words differ. -/
def diff_pos (x y : List Char) : List ℕ :=
  (List.range x.length).filter fun i => decide (x.getD i ' ' ≠ y.getD i ' ')

/-- one entry of the _calc_monomer_matrix_indices loops: for a masked
pair, the unique differing position and destination monomer index (none
models a failing assert); for an unmasked pair the placeholder (0, 0). -/
def monomerEntry (ta : List (List Char)) (monomers : List Char) (mask : Row)
    (n k : ℕ) : Option (ℕ × ℕ) :=
  if mask.getD k 0 ≠ 0 then
    if mask.getD k 0 = 1 then
      match diff_pos (ta.getD (k / n) []) (ta.getD (k % n) []) with
      | [d] => some (d, monomers.indexOf ((ta.getD (k % n) []).getD d ' '))
      | _ => none
    else none
  else some (0, 0)

/-- collect the entries of the nested loops over flat indices, aborting
(none) as soon as an assert fails -/
def entriesList (f : ℕ → Option (ℕ × ℕ)) : List ℕ → Option (List (ℕ × ℕ))
  | [] => some []
  | k :: ks =>
    match f k, entriesList f ks with
    | some e, some es => some (e :: es)
    | _, _ => none

/-- Embeds _calc_monomer_matrix_indices: the (mutated_posn, mutant_motif,
mask) triple, or none when the exactly-one-difference assert fails. -/
def calc_monomer_matrix_indices (ta : List (List Char)) (monomers : List Char)
    (mask : Row) : Option (List ℕ × List ℕ × Row) :=
  (entriesList (monomerEntry ta monomers mask ta.length)
    (List.range (ta.length * ta.length))).map
    fun es => (es.map Prod.fst, es.map Prod.snd, mask)

/-- Embeds SubstitutionModel.calcWordWeightMatrix over a stored
(mutated_posn, mutant_motif, mask) triple: entry k is the probability of
the recorded destination monomer (taken from the single shared vector,
or from the flattened position-specific array at positions*size +
indices) times the mask entry. -/
def calcWordWeightMatrix (mmi : List ℕ × List ℕ × Row) (mps : List (List ℚ)) : Row :=
  match mps with
  | [mp] => (List.range mmi.2.2.length).map fun k =>
      mp.getD (mmi.2.1.getD k 0) 0 * mmi.2.2.getD k 0
  | _ =>
    (List.range mmi.2.2.length).map fun k =>
      (mps.flatten).getD
        (mmi.1.getD k 0 * (mps.headD []).length + mmi.2.1.getD k 0) 0
        * mmi.2.2.getD k 0

theorem getD_range (n k : ℕ) (h : k < n) : (List.range n).getD k 0 = k := by
  rw [List.getD_eq_getElem?_getD, List.getElem?_range h]
  rfl

theorem getD_mem {α : Type} (l : List α) (i : ℕ) (d : α) (h : i < l.length) :
    l.getD i d ∈ l := by
  induction l generalizing i with
  | nil => simp at h
  | cons a t ih =>
    cases i with
    | zero => simp
    | succ j =>
      simp only [List.getD_cons_succ]
      exact List.mem_cons_of_mem a (ih j (by simpa using h))

theorem getD_map_fst (es : List (ℕ × ℕ)) (k : ℕ) (hk : k < es.length) :
    (es.map Prod.fst).getD k 0 = (es.getD k (0, 0)).1 := by
  induction es generalizing k with
  | nil => simp at hk
  | cons e t ih =>
    cases k with
    | zero => simp
    | succ j => simpa using ih j (by simpa using hk)

theorem getD_map_snd (es : List (ℕ × ℕ)) (k : ℕ) (hk : k < es.length) :
    (es.map Prod.snd).getD k 0 = (es.getD k (0, 0)).2 := by
  induction es generalizing k with
  | nil => simp at hk
  | cons e t ih =>
    cases k with
    | zero => simp
    | succ j => simpa using ih j (by simpa using hk)

theorem entriesList_eq_none (f : ℕ → Option (ℕ × ℕ)) (ks : List ℕ) (k : ℕ)
    (hk : k ∈ ks) (hf : f k = none) : entriesList f ks = none := by
  induction ks with
  | nil => simp at hk
  | cons a t ih =>
    rcases List.mem_cons.mp hk with rfl | h2
    · cases hE : entriesList f t <;> simp [entriesList, hf, hE]
    · cases hfa : f a <;> simp [entriesList, hfa, ih h2]

theorem entriesList_eq_some (f : ℕ → Option (ℕ × ℕ)) (ks : List ℕ)
    (es : List (ℕ × ℕ)) (h : entriesList f ks = some es) :
    es.length = ks.length ∧ ∀ t, t < ks.length →
      f (ks.getD t 0) = some (es.getD t (0, 0)) := by
  induction ks generalizing es with
  | nil =>
    unfold entriesList at h
    injection h with h2
    subst h2
    exact ⟨rfl, fun t ht => absurd ht (by simp)⟩
  | cons a t ih =>
    unfold entriesList at h
    cases hfa : f a with
    | none =>
      rw [hfa] at h
      cases hE : entriesList f t <;> rw [hE] at h <;> simp at h
    | some e =>
      rw [hfa] at h
      cases hE : entriesList f t with
      | none =>
        rw [hE] at h
        simp at h
      | some es2 =>
        rw [hE] at h
        simp only at h
        injection h with h2
        subst h2
        obtain ⟨hlen, hall⟩ := ih es2 hE
        refine ⟨by simp [hlen], ?_⟩
        intro j hj
        cases j with
        | zero => simpa using hfa
        | succ j2 =>
          simp only [List.getD_cons_succ]
          exact hall j2 (by simpa using hj)

theorem monomerEntry_some_cases (ta : List (List Char)) (monomers : List Char)
    (mask : Row) (n k : ℕ) (e : ℕ × ℕ)
    (h : monomerEntry ta monomers mask n k = some e) :
    (mask.getD k 0 = 0 ∧ e = (0, 0))
    ∨ (mask.getD k 0 = 1
      ∧ ∃ d, diff_pos (ta.getD (k / n) []) (ta.getD (k % n) []) = [d]
        ∧ e = (d, monomers.indexOf ((ta.getD (k % n) []).getD d ' '))) := by
  unfold monomerEntry at h
  by_cases h0 : mask.getD k 0 ≠ 0
  · rw [if_pos h0] at h
    by_cases h1 : mask.getD k 0 = 1
    · rw [if_pos h1] at h
      cases hd : diff_pos (ta.getD (k / n) []) (ta.getD (k % n) []) with
      | nil =>
        rw [hd] at h
        simp at h
      | cons d ds =>
        cases ds with
        | nil =>
          rw [hd] at h
          injection h with h2
          exact Or.inr ⟨h1, d, rfl, h2.symm⟩
        | cons d2 ds2 =>
          rw [hd] at h
          simp at h
    · rw [if_neg h1] at h
      simp at h
  · rw [if_neg h0] at h
    injection h with h2
    push_neg at h0
    exact Or.inl ⟨h0, h2.symm⟩

theorem calc_mmi_some_inv (ta : List (List Char)) (monomers : List Char) (mask : Row)
    (posns motifs : List ℕ) (mask2 : Row)
    (h : calc_monomer_matrix_indices ta monomers mask = some (posns, motifs, mask2)) :
    mask2 = mask ∧ posns.length = ta.length * ta.length
    ∧ motifs.length = ta.length * ta.length
    ∧ ∀ k, k < ta.length * ta.length →
        monomerEntry ta monomers mask ta.length k
          = some (posns.getD k 0, motifs.getD k 0) := by
  unfold calc_monomer_matrix_indices at h
  cases hE : entriesList (monomerEntry ta monomers mask ta.length)
      (List.range (ta.length * ta.length)) with
  | none =>
    rw [hE] at h
    simp at h
  | some es =>
    rw [hE] at h
    simp only [Option.map_some'] at h
    injection h with h4
    have hp : es.map Prod.fst = posns := congrArg Prod.fst h4
    have hrest := congrArg Prod.snd h4
    have hm : es.map Prod.snd = motifs := congrArg Prod.fst hrest
    have hk2 : mask = mask2 := congrArg Prod.snd hrest
    obtain ⟨hlen, hall⟩ := entriesList_eq_some _ _ es hE
    rw [List.length_range] at hlen
    refine ⟨hk2.symm, by rw [← hp, List.length_map, hlen],
      by rw [← hm, List.length_map, hlen], ?_⟩
    intro k hkn
    have hf := hall k (by rwa [List.length_range])
    rw [getD_range _ k hkn] at hf
    rw [hf, ← hp, ← hm, getD_map_fst es k (by rwa [hlen]),
      getD_map_snd es k (by rwa [hlen])]

theorem getD_append_left (a b : Row) (k : ℕ) (h : k < a.length) :
    (a ++ b).getD k 0 = a.getD k 0 := by
  induction a generalizing k with
  | nil => simp at h
  | cons x t ih =>
    cases k with
    | zero => simp
    | succ j => simpa using ih j (by simpa using h)

theorem getD_append_add (a b : Row) (k : ℕ) :
    (a ++ b).getD (a.length + k) 0 = b.getD k 0 := by
  induction a with
  | nil => simp
  | cons x t ih => simpa [Nat.succ_add] using ih

theorem getD_flatten_uniform (mps : List (List ℚ)) (size p m : ℕ)
    (huniform : ∀ r ∈ mps, r.length = size) (hp : p < mps.length) (hm : m < size) :
    (mps.flatten).getD (p * size + m) 0 = (mps.getD p []).getD m 0 := by
  induction mps generalizing p with
  | nil => simp at hp
  | cons r rs ih =>
    have hr : r.length = size := huniform r (List.mem_cons_self r rs)
    cases p with
    | zero =>
      rw [List.flatten_cons, Nat.zero_mul, Nat.zero_add,
        getD_append_left r rs.flatten m (by omega)]
      simp
    | succ j =>
      rw [List.flatten_cons]
      have hidx : (j + 1) * size + m = r.length + (j * size + m) := by
        rw [hr]
        ring
      rw [hidx, getD_append_add r rs.flatten (j * size + m)]
      simpa using ih j (fun x hx => huniform x (List.mem_cons_of_mem r hx))
        (by simpa using hp)

theorem diff_pos_mem_lt (x y : List Char) (d : ℕ) (h : d ∈ diff_pos x y) :
    d < x.length := by
  unfold diff_pos at h
  exact List.mem_range.mp (List.mem_filter.mp h).1

/-- C7: for every pair flagged in the instantaneous mask the construction
asserts exactly one differing position (any other number of differences
aborts with none), and non-instantaneous pairs receive the placeholder
(0, 0), so that under the model invariants every stored index is within
range for the downstream gather operations. -/
theorem c7_monomer_matrix_safety (ta : List (List Char)) (monomers : List Char)
    (mask : Row) (L : ℕ) :
    (∀ k, k < ta.length * ta.length → mask.getD k 0 = 1 →
      (diff_pos (ta.getD (k / ta.length) []) (ta.getD (k % ta.length) [])).length ≠ 1 →
      calc_monomer_matrix_indices ta monomers mask = none)
    ∧ (∀ posns motifs mask2,
        calc_monomer_matrix_indices ta monomers mask = some (posns, motifs, mask2) →
      (∀ k, k < ta.length * ta.length → mask.getD k 0 = 0 →
        posns.getD k 0 = 0 ∧ motifs.getD k 0 = 0)
      ∧ (0 < L → monomers ≠ [] →
          (∀ w ∈ ta, w.length = L ∧ ∀ ch ∈ w, ch ∈ monomers) →
          ∀ k, k < ta.length * ta.length →
            posns.getD k 0 < L ∧ motifs.getD k 0 < monomers.length)) := by
  constructor
  · intro k hk hmask1 hdiffs
    have hfk : monomerEntry ta monomers mask ta.length k = none := by
      unfold monomerEntry
      rw [if_pos (by rw [hmask1]; norm_num), if_pos hmask1]
      cases hd : diff_pos (ta.getD (k / ta.length) []) (ta.getD (k % ta.length) []) with
      | nil => rfl
      | cons d ds =>
        cases ds with
        | nil =>
          rw [hd] at hdiffs
          simp at hdiffs
        | cons d2 ds2 => rfl
    unfold calc_monomer_matrix_indices
    rw [entriesList_eq_none _ _ k (List.mem_range.mpr hk) hfk]
    rfl
  · intro posns motifs mask2 hsome
    obtain ⟨hmask2, hplen, hmlen2, hentry⟩ :=
      calc_mmi_some_inv ta monomers mask posns motifs mask2 hsome
    constructor
    · intro k hk hmask0
      rcases monomerEntry_some_cases ta monomers mask ta.length k _ (hentry k hk) with
        ⟨_, he⟩ | ⟨h1, _, _, _⟩
      · exact ⟨congrArg Prod.fst he, congrArg Prod.snd he⟩
      · rw [hmask0] at h1
        norm_num at h1
    · intro hL hmon hwords k hk
      have hn : 0 < ta.length := by
        rcases Nat.eq_zero_or_pos ta.length with h0 | h0
        · rw [h0] at hk
          simp at hk
        · exact h0
      rcases monomerEntry_some_cases ta monomers mask ta.length k _ (hentry k hk) with
        ⟨_, he⟩ | ⟨_, d, hd, he⟩
      · have h1 : posns.getD k 0 = 0 := congrArg Prod.fst he
        have h2 : motifs.getD k 0 = 0 := congrArg Prod.snd he
        rw [h1, h2]
        exact ⟨hL, List.length_pos.mpr hmon⟩
      · have h1 : posns.getD k 0 = d := congrArg Prod.fst he
        have h2 : motifs.getD k 0
            = monomers.indexOf ((ta.getD (k % ta.length) []).getD d ' ') :=
          congrArg Prod.snd he
        have hxmem : ta.getD (k / ta.length) [] ∈ ta :=
          getD_mem ta (k / ta.length) [] ((Nat.div_lt_iff_lt_mul hn).mpr hk)
        have hymem : ta.getD (k % ta.length) [] ∈ ta :=
          getD_mem ta (k % ta.length) [] (Nat.mod_lt k hn)
        have hdL : d < L := by
          have hdx := diff_pos_mem_lt _ _ d (by rw [hd]; exact List.mem_cons_self d [])
          rw [(hwords _ hxmem).1] at hdx
          exact hdx
        have hylen : (ta.getD (k % ta.length) []).length = L := (hwords _ hymem).1
        have hch : (ta.getD (k % ta.length) []).getD d ' ' ∈ monomers :=
          (hwords _ hymem).2 _ (getD_mem _ d ' ' (by rw [hylen]; exact hdL))
        rw [h1, h2]
        exact ⟨hdL, List.indexOf_lt_length.mpr hch⟩

/-- C7 witness: an instantaneous mask wrongly flagging the two-position
pair (AA, BB) makes the construction abort. -/
theorem c7_witness :
    calc_monomer_matrix_indices [['A','A'], ['A','B'], ['B','A'], ['B','B']] ['A','B']
      [0,1,1,1, 1,0,0,1, 1,0,0,1, 0,1,1,0] = none :=
  (c7_monomer_matrix_safety [['A','A'], ['A','B'], ['B','A'], ['B','B']] ['A','B']
    [0,1,1,1, 1,0,0,1, 1,0,0,1, 0,1,1,0] 2).1 3 (by decide)
    (by with_unfolding_all decide) (by decide)

/-- C6: calcWordWeightMatrix sets, for every pair flagged in the
instantaneous mask, the probability of the recorded destination monomer
at the recorded differing position (from the shared monomer vector, or
from the position-specific vector of that position), and 0 for every
pair the mask leaves unset. -/
theorem c6_calcWordWeightMatrix_spec (ta : List (List Char)) (monomers : List Char)
    (mask : Row) (posns motifs : List ℕ) (mask2 : Row)
    (hcalc : calc_monomer_matrix_indices ta monomers mask = some (posns, motifs, mask2))
    (hmlen : mask.length = ta.length * ta.length) :
    (∀ (mp : List ℚ) (k : ℕ), k < ta.length * ta.length → mask.getD k 0 = 0 →
      (calcWordWeightMatrix (posns, motifs, mask2) [mp]).getD k 0 = 0)
    ∧ (∀ (mp : List ℚ) (k : ℕ), k < ta.length * ta.length → mask.getD k 0 = 1 →
      ∃ d, diff_pos (ta.getD (k / ta.length) []) (ta.getD (k % ta.length) []) = [d]
        ∧ (calcWordWeightMatrix (posns, motifs, mask2) [mp]).getD k 0
          = mp.getD (monomers.indexOf ((ta.getD (k % ta.length) []).getD d ' ')) 0)
    ∧ (∀ (mp0 mp1 : List ℚ) (mrest : List (List ℚ)) (L : ℕ),
        (∀ r ∈ mp0 :: mp1 :: mrest, r.length = monomers.length) →
        (∀ w ∈ ta, w.length = L ∧ ∀ ch ∈ w, ch ∈ monomers) →
        (mp0 :: mp1 :: mrest).length = L →
        ∀ k, k < ta.length * ta.length →
          (mask.getD k 0 = 0 →
            (calcWordWeightMatrix (posns, motifs, mask2)
              (mp0 :: mp1 :: mrest)).getD k 0 = 0)
          ∧ (mask.getD k 0 = 1 →
            ∃ d, diff_pos (ta.getD (k / ta.length) []) (ta.getD (k % ta.length) []) = [d]
              ∧ (calcWordWeightMatrix (posns, motifs, mask2)
                  (mp0 :: mp1 :: mrest)).getD k 0
                = ((mp0 :: mp1 :: mrest).getD d []).getD
                    (monomers.indexOf ((ta.getD (k % ta.length) []).getD d ' ')) 0)) := by
  obtain ⟨hmask2, hplen, hmlen2, hentry⟩ :=
    calc_mmi_some_inv ta monomers mask posns motifs mask2 hcalc
  rw [hmask2]
  have hk2 : ∀ k, k < ta.length * ta.length → k < mask.length := by
    intro k hk
    rw [hmlen]
    exact hk
  have hsingle : ∀ (mp : List ℚ) (k : ℕ), k < ta.length * ta.length →
      (calcWordWeightMatrix (posns, motifs, mask) [mp]).getD k 0
        = mp.getD (motifs.getD k 0) 0 * mask.getD k 0 := by
    intro mp k hk
    show ((List.range mask.length).map fun k =>
      mp.getD (motifs.getD k 0) 0 * mask.getD k 0).getD k 0 = _
    rw [getD_map_range _ mask.length k (hk2 k hk)]
  have hmulti : ∀ (mp0 mp1 : List ℚ) (mrest : List (List ℚ)) (k : ℕ),
      k < ta.length * ta.length →
      (calcWordWeightMatrix (posns, motifs, mask) (mp0 :: mp1 :: mrest)).getD k 0
        = ((mp0 :: mp1 :: mrest).flatten).getD
            (posns.getD k 0 * mp0.length + motifs.getD k 0) 0 * mask.getD k 0 := by
    intro mp0 mp1 mrest k hk
    show ((List.range mask.length).map fun k =>
      ((mp0 :: mp1 :: mrest).flatten).getD
        (posns.getD k 0 * mp0.length + motifs.getD k 0) 0 * mask.getD k 0).getD k 0 = _
    rw [getD_map_range _ mask.length k (hk2 k hk)]
  refine ⟨?_, ?_, ?_⟩
  · intro mp k hk h0
    rw [hsingle mp k hk, h0, mul_zero]
  · intro mp k hk h1
    rcases monomerEntry_some_cases ta monomers mask ta.length k _ (hentry k hk) with
      ⟨h0, _⟩ | ⟨_, d, hd, he⟩
    · rw [h1] at h0
      norm_num at h0
    · refine ⟨d, hd, ?_⟩
      have h2 : motifs.getD k 0
          = monomers.indexOf ((ta.getD (k % ta.length) []).getD d ' ') := by
        simpa using congrArg Prod.snd he
      rw [hsingle mp k hk, h2, h1, mul_one]
  · intro mp0 mp1 mrest L hrows hwords hmps k hk
    constructor
    · intro h0
      rw [hmulti mp0 mp1 mrest k hk, h0, mul_zero]
    · intro h1
      rcases monomerEntry_some_cases ta monomers mask ta.length k _ (hentry k hk) with
        ⟨h0, _⟩ | ⟨_, d, hd, he⟩
      · rw [h1] at h0
        norm_num at h0
      · refine ⟨d, hd, ?_⟩
        have hn : 0 < ta.length := by
          rcases Nat.eq_zero_or_pos ta.length with hz | hz
          · rw [hz] at hk
            simp at hk
          · exact hz
        have hxmem : ta.getD (k / ta.length) [] ∈ ta :=
          getD_mem ta (k / ta.length) [] ((Nat.div_lt_iff_lt_mul hn).mpr hk)
        have hymem : ta.getD (k % ta.length) [] ∈ ta :=
          getD_mem ta (k % ta.length) [] (Nat.mod_lt k hn)
        have hdL : d < L := by
          have hdx := diff_pos_mem_lt _ _ d (by rw [hd]; exact List.mem_cons_self d [])
          rw [(hwords _ hxmem).1] at hdx
          exact hdx
        have hylen : (ta.getD (k % ta.length) []).length = L := (hwords _ hymem).1
        have hch : (ta.getD (k % ta.length) []).getD d ' ' ∈ monomers :=
          (hwords _ hymem).2 _ (getD_mem _ d ' ' (by rw [hylen]; exact hdL))
        have hidx : monomers.indexOf ((ta.getD (k % ta.length) []).getD d ' ')
            < monomers.length := List.indexOf_lt_length.mpr hch
        have hmp0 : mp0.length = monomers.length :=
          hrows mp0 (List.mem_cons_self mp0 (mp1 :: mrest))
        have h1p : posns.getD k 0 = d := by
          simpa using congrArg Prod.fst he
        have h2m : motifs.getD k 0
            = monomers.indexOf ((ta.getD (k % ta.length) []).getD d ' ') := by
          simpa using congrArg Prod.snd he
        rw [hmulti mp0 mp1 mrest k hk, h1p, h2m, h1, mul_one, hmp0,
          getD_flatten_uniform (mp0 :: mp1 :: mrest) monomers.length d _ hrows
            (by rw [hmps]; exact hdL) hidx]

/-- C6 witness: the single-monomer word pair (A, B) receives the
probability of the destination monomer B. -/
theorem c6_witness :
    ∃ d, diff_pos ['A'] ['B'] = [d]
      ∧ (calcWordWeightMatrix ([0,0,0,0], [0,1,0,0], [0,1,1,0])
          [[(1:ℚ)/4, 3/4]]).getD 1 0
        = [(1:ℚ)/4, 3/4].getD (['A','B'].indexOf ((['B'] : List Char).getD d ' ')) 0 :=
  (c6_calcWordWeightMatrix_spec [['A'], ['B']] ['A','B'] [0,1,1,0]
    [0,0,0,0] [0,1,0,0] [0,1,1,0] (by with_unfolding_all rfl)
    (by decide)).2.1 [(1:ℚ)/4, 3/4] 1 (by decide) (by with_unfolding_all decide)

/-- Embeds _isSymmetrical on a flat n-by-n matrix: equality with its
transpose, entry by entry. -/
def isSymmetrical (n : ℕ) (m : Row) : Bool :=
  (List.range n).all fun i => (List.range n).all fun j =>
    decide (m.getD (i * n + j) 0 = m.getD (j * n + i) 0)

/-- Embeds the symmetry computation of SubstitutionModel.__init__: start
from the symmetry of the instantaneous mask and clear the flag on every
asymmetric parameter mask encountered in the loop. -/
def modelSymmetric (n : ℕ) (instF : Row) (masks : List Row) : Bool :=
  masks.foldl (fun sym m => if isSymmetrical n m then sym else false)
    (isSymmetrical n instF)

/-- Embeds the non-fatal warnings.warn of __init__: the model-not-
reversible warning is emitted exactly when the flag is false, and
construction proceeds either way. -/
def reversibleWarnings (sym : Bool) : List String :=
  if sym then [] else ["Model not reversible"]

theorem symm_foldl_eq (n : ℕ) (masks : List Row) :
    ∀ b : Bool, masks.foldl (fun sym m => if isSymmetrical n m then sym else false) b
      = (b && masks.all (isSymmetrical n)) := by
  induction masks with
  | nil =>
    intro b
    simp
  | cons m t ih =>
    intro b
    rw [List.foldl_cons, List.all_cons]
    cases hm : isSymmetrical n m with
    | true =>
      rw [if_pos rfl, ih b]
      simp
    | false =>
      rw [if_neg (by simp), ih false]
      simp

theorem isSymmetrical_iff (n : ℕ) (m : Row) :
    isSymmetrical n m = true
      ↔ ∀ i, i < n → ∀ j, j < n → m.getD (i * n + j) 0 = m.getD (j * n + i) 0 := by
  unfold isSymmetrical
  simp [List.all_eq_true, List.mem_range]

/-- C8: the symmetric flag is true exactly when the instantaneous mask
and every parameter mask equal their own transpose; one asymmetric mask
appended to the set clears the flag; the non-reversible warning is
emitted exactly when the flag is false and construction proceeds. -/
theorem c8_symmetric_flag (n : ℕ) (instF : Row) (masks : List Row) :
    (modelSymmetric n instF masks = true
      ↔ ((∀ i, i < n → ∀ j, j < n →
            instF.getD (i * n + j) 0 = instF.getD (j * n + i) 0)
        ∧ ∀ m ∈ masks, ∀ i, i < n → ∀ j, j < n →
            m.getD (i * n + j) 0 = m.getD (j * n + i) 0))
    ∧ (∀ m, isSymmetrical n m = false →
        modelSymmetric n instF (masks ++ [m]) = false)
    ∧ (modelSymmetric n instF masks = false →
        reversibleWarnings (modelSymmetric n instF masks) = ["Model not reversible"])
    ∧ (modelSymmetric n instF masks = true →
        reversibleWarnings (modelSymmetric n instF masks) = []) := by
  refine ⟨?_, ?_, ?_, ?_⟩
  · unfold modelSymmetric
    rw [symm_foldl_eq n masks (isSymmetrical n instF)]
    rw [Bool.and_eq_true, isSymmetrical_iff, List.all_eq_true]
    constructor
    · rintro ⟨h1, h2⟩
      exact ⟨h1, fun m hm => (isSymmetrical_iff n m).mp (h2 m hm)⟩
    · rintro ⟨h1, h2⟩
      exact ⟨h1, fun m hm => (isSymmetrical_iff n m).mpr (h2 m hm)⟩
  · intro m hm
    unfold modelSymmetric
    rw [symm_foldl_eq n (masks ++ [m]) (isSymmetrical n instF), List.all_append]
    simp [hm]
  · intro h
    rw [reversibleWarnings, h]
    rfl
  · intro h
    rw [reversibleWarnings, h]
    rfl

/-- C8 witness: a symmetric instantaneous mask with one symmetric
parameter mask is flagged symmetric, and appending an asymmetric mask
clears the flag. -/
theorem c8_witness :
    (modelSymmetric 2 [0,1,1,0] [[0,1,1,0]] = true)
    ∧ modelSymmetric 2 [0,1,1,0] ([[0,1,1,0]] ++ [[0,1,0,0]]) = false :=
  ⟨(c8_symmetric_flag 2 [0,1,1,0] [[0,1,1,0]]).1.mpr
      ⟨by with_unfolding_all decide, by with_unfolding_all decide⟩,
    (c8_symmetric_flag 2 [0,1,1,0] [[0,1,1,0]]).2.1 [0,1,0,0]
      (by with_unfolding_all decide)⟩

/-- Embeds the BINS section of SubstitutionModel.__init__: require an
ordered parameter whenever partitioned parameters are declared, fold the
ordered parameters into the partitioned set, recompute with_rate, and
require a nonempty partitioned set to intersect the declared rate
parameters plus "rate". -/
def processBins (orderedParam partitionedParams parameterOrder : List String)
    (withRate : Bool) : Except String (List String × Bool) :=
  if orderedParam.isEmpty then
    if partitionedParams.isEmpty then
      .ok (partitionedParams, withRate || decide ("rate" ∈ orderedParam))
    else .error "you must specify an ordered_param for a binned model"
  else
    if (orderedParam ∪ partitionedParams).isEmpty then
      .ok (orderedParam ∪ partitionedParams, withRate || decide ("rate" ∈ orderedParam))
    else if (orderedParam ∪ partitionedParams).any
        fun x => decide (x ∈ ("rate" :: parameterOrder)) then
      .ok (orderedParam ∪ partitionedParams, withRate || decide ("rate" ∈ orderedParam))
    else .error "partitioned_params must intersect the rate parameters"

/-- C9: declaring partitioned parameters without an ordered parameter is
a construction-time error; every ordered parameter name ends up in the
partitioned set; and a nonempty partitioned set that does not intersect
the declared rate parameters plus "rate" makes construction fail, while
any successful construction satisfies that intersection. -/
theorem c9_bins_validation (orderedParam partitionedParams parameterOrder : List String)
    (withRate : Bool) :
    (orderedParam = [] → partitionedParams ≠ [] →
      processBins orderedParam partitionedParams parameterOrder withRate
        = .error "you must specify an ordered_param for a binned model")
    ∧ (orderedParam ≠ [] → ∀ pp wr,
        processBins orderedParam partitionedParams parameterOrder withRate
          = .ok (pp, wr) → ∀ x ∈ orderedParam, x ∈ pp)
    ∧ (orderedParam ≠ [] →
        (∀ x ∈ orderedParam ∪ partitionedParams, x ∉ ("rate" :: parameterOrder)) →
        processBins orderedParam partitionedParams parameterOrder withRate
          = .error "partitioned_params must intersect the rate parameters")
    ∧ (∀ pp wr, processBins orderedParam partitionedParams parameterOrder withRate
        = .ok (pp, wr) → pp ≠ [] → ∃ x ∈ pp, x ∈ ("rate" :: parameterOrder)) := by
  refine ⟨?_, ?_, ?_, ?_⟩
  · intro hop hpp
    unfold processBins
    rw [if_pos (by simp [hop]), if_neg (by simpa using hpp)]
  · intro hop pp wr hok x hx
    unfold processBins at hok
    rw [if_neg (by simpa using hop)] at hok
    have hxu : x ∈ orderedParam ∪ partitionedParams := List.mem_union_iff.mpr (Or.inl hx)
    by_cases he : (orderedParam ∪ partitionedParams).isEmpty = true
    · rw [if_pos he] at hok
      injection hok with h2
      have := congrArg Prod.fst h2
      simp only at this
      rw [← this]
      exact hxu
    · rw [if_neg he] at hok
      split at hok
      · injection hok with h2
        have := congrArg Prod.fst h2
        simp only at this
        rw [← this]
        exact hxu
      · exact absurd hok (by simp)
  · intro hop hno
    unfold processBins
    rw [if_neg (by simpa using hop)]
    have he : ((orderedParam ∪ partitionedParams).isEmpty) = false := by
      cases hE : (orderedParam ∪ partitionedParams) with
      | nil =>
        cases ho : orderedParam with
        | nil => exact absurd ho hop
        | cons a t =>
          have ha : a ∈ orderedParam ∪ partitionedParams :=
            List.mem_union_iff.mpr (Or.inl (by rw [ho]; exact List.mem_cons_self a t))
          rw [hE] at ha
          simp at ha
      | cons b u => rfl
    rw [if_neg (by simp [he])]
    have hany : ((orderedParam ∪ partitionedParams).any
        fun x => decide (x ∈ ("rate" :: parameterOrder))) = false := by
      cases hA : ((orderedParam ∪ partitionedParams).any
          fun x => decide (x ∈ ("rate" :: parameterOrder))) with
      | false => rfl
      | true =>
        obtain ⟨x, hx, hc⟩ := List.any_eq_true.mp hA
        exact absurd (of_decide_eq_true hc) (hno x hx)
    rw [if_neg (by rw [hany]; simp)]
  · intro pp wr hok hne
    unfold processBins at hok
    by_cases hop : orderedParam.isEmpty = true
    · rw [if_pos hop] at hok
      by_cases hppe : partitionedParams.isEmpty = true
      · rw [if_pos hppe] at hok
        injection hok with h2
        have := congrArg Prod.fst h2
        simp only at this
        rw [← this] at hne
        exact absurd (List.isEmpty_iff.mp hppe) hne
      · rw [if_neg hppe] at hok
        exact absurd hok (by simp)
    · rw [if_neg hop] at hok
      by_cases he : (orderedParam ∪ partitionedParams).isEmpty = true
      · rw [if_pos he] at hok
        injection hok with h2
        have := congrArg Prod.fst h2
        simp only at this
        rw [← this] at hne
        exact absurd (List.isEmpty_iff.mp he) hne
      · rw [if_neg he] at hok
        split at hok
        next hany =>
          injection hok with h2
          have hfst := congrArg Prod.fst h2
          simp only at hfst
          obtain ⟨x, hx, hdx⟩ := List.any_eq_true.mp hany
          exact ⟨x, hfst ▸ hx, of_decide_eq_true hdx⟩
        next =>
          exact absurd hok (by simp)

/-- C9 witness: a partitioned parameter without an ordered parameter
aborts, and an ordered parameter named among the rate parameters ends
up in the partitioned set. -/
theorem c9_witness :
    processBins [] ["kappa"] ["kappa"] false
      = .error "you must specify an ordered_param for a binned model"
    ∧ ∀ x ∈ ["kappa"], x ∈ (["kappa"] ∪ ([] : List String)) :=
  ⟨(c9_bins_validation [] ["kappa"] ["kappa"] false).1 rfl (by simp),
   fun x hx => (c9_bins_validation ["kappa"] [] ["kappa"] false).2.1 (by simp)
     (["kappa"] ∪ ([] : List String))
     (false || decide ("rate" ∈ ["kappa"])) (by with_unfolding_all rfl) x hx⟩

/-- a predicate rule as supplied to _adaptPredicates: an optional name
(a dict key), the textual representation used when the name is absent,
and the mask adaptPredicate computes for it -/
structure PredRule where
  label : Option String
  text : String
  mask : Row

/-- the label a rule resolves to in adaptPredicate: the supplied name or
the textual representation of the predicate (label or repr of pred) -/
def resolvedLabel (r : PredRule) : String := r.label.getD r.text

/-- Embeds _adaptPredicates: adapt each rule in order, raising the
duplicate-predicate-name KeyError as soon as a label is already taken. -/
def adaptPredicates (rules : List PredRule) : Except ModelError (List (String × Row)) :=
  rules.foldlM (fun acc r =>
    if decide (resolvedLabel r ∈ acc.map Prod.fst) then
      Except.error (ModelError.duplicatePredicateName (resolvedLabel r))
    else Except.ok (acc ++ [(resolvedLabel r, r.mask)])) []

/-- Embeds the predicate-processing order of SubstitutionModel.__init__:
_adaptPredicates runs first and only a successful result reaches
checkPredicateMasks. -/
def constructPredicates (doScaling : Bool) (inst : Row) (rules : List PredRule) :
    Except ModelError (List (String × Row) × Bool) :=
  match adaptPredicates rules with
  | .error e => .error e
  | .ok masks =>
    match checkPredicateMasks doScaling inst masks with
    | .error e => .error e
    | .ok warned => .ok (masks, warned)

theorem adaptPredicates_fold_duplicate (rules : List PredRule) :
    ∀ acc : List (String × Row),
      ((∃ r ∈ rules, resolvedLabel r ∈ acc.map Prod.fst)
        ∨ (∃ (U : List PredRule) (r1 : PredRule) (V : List PredRule) (r2 : PredRule)
            (W : List PredRule), rules = U ++ r1 :: V ++ r2 :: W
            ∧ resolvedLabel r1 = resolvedLabel r2)) →
      ∃ lbl, rules.foldlM (fun acc r =>
          if decide (resolvedLabel r ∈ acc.map Prod.fst) then
            Except.error (ModelError.duplicatePredicateName (resolvedLabel r))
          else Except.ok (acc ++ [(resolvedLabel r, r.mask)])) acc
        = Except.error (ModelError.duplicatePredicateName lbl) := by
  induction rules with
  | nil =>
    intro acc h
    rcases h with ⟨r, hr, _⟩ | ⟨U, r1, V, r2, W, hsplit, _⟩
    · simp at hr
    · cases U <;> simp at hsplit
  | cons r rest ih =>
    intro acc h
    rw [List.foldlM_cons]
    by_cases hc : resolvedLabel r ∈ acc.map Prod.fst
    · rw [if_pos (by simpa using hc)]
      exact ⟨resolvedLabel r, rfl⟩
    · rw [if_neg (by simpa using hc)]
      apply ih (acc ++ [(resolvedLabel r, r.mask)])
      rcases h with ⟨r3, hr3, hmem⟩ | ⟨U, r1, V, r2, W, hsplit, heq⟩
      · rcases List.mem_cons.mp hr3 with rfl | h4
        · exact absurd hmem hc
        · left
          refine ⟨r3, h4, ?_⟩
          rw [List.map_append]
          exact List.mem_append_left _ hmem
      · cases U with
        | nil =>
          simp only [List.nil_append] at hsplit
          injection hsplit with h1 h2
          left
          refine ⟨r2, ?_, ?_⟩
          · rw [h2]
            exact List.mem_append_right V (List.mem_cons_self r2 W)
          · rw [List.map_append, ← heq, h1]
            exact List.mem_append_right _ (by simp)
        | cons u us =>
          injection hsplit with h1 h2
          right
          exact ⟨us, r1, V, r2, W, h2, heq⟩

/-- C10: two rules resolving to the same label (a name used twice, or
two anonymous predicates with the same textual representation) make
model construction fail with the duplicate-predicate-name error during
predicate adaptation, whatever the masks are, so before any redundancy
or triviality validation can run. -/
theorem c10_duplicate_predicate (doScaling : Bool) (inst : Row)
    (rules : List PredRule) (U : List PredRule) (r1 : PredRule) (V : List PredRule)
    (r2 : PredRule) (W : List PredRule)
    (hsplit : rules = U ++ r1 :: V ++ r2 :: W)
    (heq : resolvedLabel r1 = resolvedLabel r2) :
    ∃ lbl, constructPredicates doScaling inst rules
      = .error (.duplicatePredicateName lbl) := by
  obtain ⟨lbl, hfold⟩ := adaptPredicates_fold_duplicate rules []
    (Or.inr ⟨U, r1, V, r2, W, hsplit, heq⟩)
  refine ⟨lbl, ?_⟩
  unfold constructPredicates adaptPredicates
  rw [hfold]

/-- C10 witness: two anonymous predicates with the same textual
representation collide, even though their masks are distinct and would
pass validation. -/
theorem c10_witness :
    ∃ lbl, constructPredicates true [0,1,1,0]
      [⟨none, "pred", [0,1,0,0]⟩, ⟨none, "pred", [0,0,1,0]⟩]
      = .error (.duplicatePredicateName lbl) :=
  c10_duplicate_predicate true [0,1,1,0]
    [⟨none, "pred", [0,1,0,0]⟩, ⟨none, "pred", [0,0,1,0]⟩]
    [] ⟨none, "pred", [0,1,0,0]⟩ [] ⟨none, "pred", [0,0,1,0]⟩ [] rfl rfl

end Cogent
